import Mathlib

/-!
Verification of the feed-ingestion and deduplication engine of the
`yongkangc/ai` repository, as implemented in
`skills/daily-reading-digest/scripts/collect_digest.py` and its near-identical
copy `skills/vicki-newsletter-digest/scripts/collect_vicki_digest.py`.

Shallow embedding conventions:

* UTC timestamps (`datetime` values) are modelled as `Int`, thought of as
  microseconds since the epoch; `timedelta` values (the `--since-hours` and
  `--grace-hours` arguments, after `dt.timedelta(hours=...)`) are likewise
  `Int` durations in the same unit.  Comparison and subtraction of aware
  datetimes map to `Int` comparison and subtraction.  `isoformat` followed by
  `parse_datetime` is the identity on aware datetimes, so a persisted
  timestamp is modelled by the `Int` it denotes.
* Python `str` is Lean `String`; Python `len`/slicing act on code points,
  matching Lean `String.length`/`List.take` on `String.toList`.
* Standard-library black boxes that the scripts merely call
  (`urllib.parse.urlsplit`+`parse_qsl`, `html.unescape`, and the
  `email.utils`/`fromisoformat` date parsers inside `parse_datetime`) are
  passed in as explicit function parameters; everything the repository's own
  code does around them is embedded directly.
* Fallible operations return `Except String` / `Option`.
-/

/-! ### `tag_name` (both scripts)

`tag_name(tag)` returns the part of `tag` after the last `"\x7d"`, i.e. it
strips an XML namespace prefix `\x7bns\x7d`.  Python's
`tag.rsplit(chr(125), 1)[-1]` (guarded by a containment test that does not
change the result) is the last segment of splitting on that character. -/
def splitOnBrace : List Char → List (List Char)
  | [] => [[]]
  | x :: rest =>
    match splitOnBrace rest with
    | [] => [[]]
    | seg :: segs => if x = '\x7d' then [] :: seg :: segs else (x :: seg) :: segs

def tag_name (tag : String) : String :=
  String.mk ((splitOnBrace tag.toList).getLastD [])

/-- Python `str.lower()` (character-wise; ASCII is all the scripts meet). -/
def pyLower (s : String) : String :=
  String.mk (s.toList.map Char.toLower)

/-- Python `\s` over the relevant (ASCII) range, as matched by `WS_RE`. -/
def isPyWs (c : Char) : Bool :=
  c = ' ' ∨ c = '\t' ∨ c = '\n' ∨ c = '\x0d' ∨ c = '\x0b' ∨ c = '\x0c'

/-- Python `str.strip()` (over the modelled whitespace range). -/
def pyStrip (s : String) : String :=
  String.mk (((s.toList.dropWhile isPyWs).reverse.dropWhile isPyWs).reverse)

/-- Python `str.rstrip()`. -/
def pyRstrip (s : String) : String :=
  String.mk ((s.toList.reverse.dropWhile isPyWs).reverse)

/-! ### URL canonicalizer: `normalize_url` (both scripts)

`urllib.parse.urlsplit` / `parse_qsl` / `urlencode` / `urlunsplit` are
standard-library collaborators.  The split is modelled at its interface: a
successful `urlsplit` followed by `parse_qsl(parts.query,
keep_blank_values=True)` yields a `SplitResult` whose `query` field is the
decoded parameter list; a `ValueError` from `urlsplit` is `none`.  The
re-serialization (`urlencode` with `quote_plus`, and `urlunsplit`) is embedded
concretely below, following the CPython implementations. -/

structure SplitResult where
  scheme : String
  netloc : String
  path : String
  /-- the query component, as decoded by `parse_qsl(..., keep_blank_values=True)` -/
  query : List (String × String)
  fragment : String
deriving DecidableEq, Repr

/-- The key test of the filtering loop in `normalize_url`: a parameter is
dropped exactly when its lowercased key starts with `utm_` or is exactly
`ref` or `source`. -/
def isTrackedKey (key : String) : Bool :=
  let lowered := pyLower key
  "utm_".toList.isPrefixOf lowered.toList || lowered == "ref" || lowered == "source"

/-- Uppercase hex digit, for percent-encoding. -/
def toHexDigit (n : Nat) : Char :=
  if n < 10 then Char.ofNat (48 + n) else Char.ofNat (55 + n)

/-- UTF-8 bytes of a character, as `Nat`s below 256. -/
def utf8Bytes (c : Char) : List Nat :=
  let n := c.toNat
  if n < 128 then [n]
  else if n < 2048 then [192 + n / 64, 128 + n % 64]
  else if n < 65536 then [224 + n / 4096, 128 + (n / 64) % 64, 128 + n % 64]
  else [240 + n / 262144, 128 + (n / 4096) % 64, 128 + (n / 64) % 64, 128 + n % 64]

/-- `urllib.parse.quote_plus` with `safe=""` (as used by `urlencode`):
ASCII alphanumerics and `_.-~` pass through, a space becomes `+`, every
other character is percent-encoded byte-wise in UTF-8. -/
def quotePlus (s : String) : String :=
  String.join <| s.toList.map fun c =>
    if c.isAlphanum && c.toNat < 128 || c = '_' || c = '.' || c = '-' || c = '~' then
      String.singleton c
    else if c = ' ' then "+"
    else String.join ((utf8Bytes c).map fun b =>
      String.mk ['%', toHexDigit (b / 16), toHexDigit (b % 16)])

/-- `str.join`: the components interleaved with the separator. -/
def joinSep (sep : String) : List String → String
  | [] => ""
  | [x] => x
  | x :: rest => x ++ sep ++ joinSep sep rest

/-- `urllib.parse.urlencode(pairs, doseq=True)` on string pairs:
`k=v` components joined with `&`. -/
def urlencode (pairs : List (String × String)) : String :=
  joinSep "&" (pairs.map fun kv => quotePlus kv.1 ++ "=" ++ quotePlus kv.2)

/-- `urllib.parse.urlunsplit`, following the CPython source. -/
def urlunsplit (scheme netloc path query fragment : String) : String :=
  let url := path
  let url :=
    if netloc ≠ "" ∨ url.toList.take 2 = ['/', '/'] then
      let url := if url ≠ "" ∧ url.toList.take 1 ≠ ['/'] then "/" ++ url else url
      "//" ++ netloc ++ url
    else url
  let url := if scheme ≠ "" then scheme ++ ":" ++ url else url
  let url := if query ≠ "" then url ++ "?" ++ query else url
  if fragment ≠ "" then url ++ "#" ++ fragment else url

/-- `normalize_url(url)` from both scripts.  `split` models
`urlsplit`+`parse_qsl` (`none` = `ValueError` from `urlsplit`, in which case
the stripped input is returned unchanged). -/
def normalize_url (url : Option String) (split : String → Option SplitResult) : String :=
  match url with
  | none => ""
  | some u =>
    let value := pyStrip u
    if value = "" then ""
    else
      match split value with
      | none => value
      | some parts =>
        let filtered_query := parts.query.filter fun kv => ¬ isTrackedKey kv.1
        urlunsplit parts.scheme parts.netloc parts.path (urlencode filtered_query)
          parts.fragment

/-! ### Excerpt sanitizer: `clean_excerpt` (both scripts) -/

/-- `TAG_RE.sub(" ", text)` for `TAG_RE = re.compile(r"<[^>]+>")`:
leftmost-scan replacement of every `<`, one-or-more non-`>` characters, `>`
span by a single space.  The second argument buffers (reversed) the
characters read since an unmatched `<`. -/
def stripTagsGo : List Char → Option (List Char) → List Char
  | [], none => []
  | [], some buf => '<' :: buf.reverse
  | c :: rest, none =>
    if c = '<' then stripTagsGo rest (some []) else c :: stripTagsGo rest none
  | c :: rest, some buf =>
    if c = '>' then
      if buf = [] then '<' :: '>' :: stripTagsGo rest none
      else ' ' :: stripTagsGo rest none
    else stripTagsGo rest (some (c :: buf))

/-- `WS_RE.sub(" ", text)` for `WS_RE = re.compile(r"\s+")`: every maximal
whitespace run becomes a single space.  The flag records being inside a run
whose space was already emitted. -/
def collapseWsGo : Bool → List Char → List Char
  | _, [] => []
  | inRun, c :: rest =>
    if isPyWs c then
      if inRun then collapseWsGo true rest else ' ' :: collapseWsGo true rest
    else c :: collapseWsGo false rest

/-- The entity-decode / tag-strip / whitespace-collapse / trim pipeline shared
by both `clean_excerpt` implementations.  `unescape` models `html.unescape`. -/
def sanitizeText (unescape : String → String) (raw : String) : String :=
  pyStrip (String.mk (collapseWsGo false (stripTagsGo (unescape raw).toList none)))

/-- Common body of the two `clean_excerpt` functions, with the appended
truncation suffix made explicit.  Faithful for `1 ≤ max_chars` (for
`max_chars = 0` Python's `text[:-1]` slice differs from `List.take 0`);
both call sites use 240 or 300. -/
def truncateExcerpt (suffix : String) (unescape : String → String)
    (raw : Option String) (max_chars : Nat) : String :=
  match raw with
  | none => ""
  | some r =>
    if r = "" then ""
    else
      let text := sanitizeText unescape r
      if text.length ≤ max_chars then text
      else pyRstrip (String.mk (text.toList.take (max_chars - 1))) ++ suffix

/-- The truncation suffix literal of `collect_digest.py` (daily-reading
digest).  The file's bytes are `C3 A2 E2 82 AC C2 A6`: the *three*
characters U+00E2, U+20AC, U+00A6 (a mojibake rendering of the ellipsis),
not a single ellipsis character. -/
def dailySuffix : String := "â€¦"

/-- The truncation suffix literal of `collect_vicki_digest.py`: a single
ellipsis character U+2026. -/
def vickiSuffix : String := "…"

/-- `clean_excerpt` from `collect_digest.py` (default `max_chars = 240`). -/
def clean_excerpt (unescape : String → String) (raw : Option String)
    (max_chars : Nat := 240) : String :=
  truncateExcerpt dailySuffix unescape raw max_chars

/-- `clean_excerpt` from `collect_vicki_digest.py` (default `max_chars = 300`). -/
def clean_excerpt_vicki (unescape : String → String) (raw : Option String)
    (max_chars : Nat := 300) : String :=
  truncateExcerpt vickiSuffix unescape raw max_chars

/-! ### Feed decoder: `parse_feed`, `parse_rss_entries`, `parse_atom_entries`

An `xml.etree.ElementTree` element is a tag, an attribute dictionary, the
text before the first child, and the list of child elements. -/

inductive Xml where
  | elem (tag : String) (attrs : List (String × String)) (text : Option String)
      (children : List Xml)
deriving Repr

def Xml.tag : Xml → String
  | .elem t _ _ _ => t

def Xml.attrs : Xml → List (String × String)
  | .elem _ a _ _ => a

def Xml.text : Xml → Option String
  | .elem _ _ t _ => t

def Xml.children : Xml → List Xml
  | .elem _ _ _ c => c

/-- `element.attrib.get(key)`. -/
def attrGet (x : Xml) (key : String) : Option String :=
  (x.attrs.find? fun kv => kv.1 = key).map (·.2)

/-- The scan of `first_child_text` over a child list. -/
def firstChildTextGo (names : List String) : List Xml → Option String
  | [] => none
  | c :: rest =>
    if names.contains (tag_name c.tag) then
      let text := pyStrip (c.text.getD "")
      if text ≠ "" then some text else firstChildTextGo names rest
    else firstChildTextGo names rest

/-- `first_child_text(node, names)`: the first child whose local tag name is
in `names` *and* whose stripped text is non-empty; scanning continues past
matching children with empty text. -/
def first_child_text (node : Xml) (names : List String) : Option String :=
  firstChildTextGo names node.children

/-- `first_child(node, names)`: the first child whose local tag name is in
`names`. -/
def first_child (node : Xml) (names : List String) : Option Xml :=
  node.children.find? fun c => names.contains (tag_name c.tag)

/-- A decoded feed entry (decoder output). -/
structure Entry where
  title : String
  url : String
  summary : String
  published_at : Option Int
deriving DecidableEq, Repr

/-- The standard-library collaborators threaded through the decoder:
`split` models `urlsplit`+`parse_qsl` (see `normalize_url`), `unescape`
models `html.unescape`, and `pd` models the `email.utils` /
`datetime.fromisoformat` parsing attempts inside `parse_datetime` on an
already-stripped non-empty string (`none` = all attempts failed). -/
structure Oracles where
  split : String → Option SplitResult
  unescape : String → String
  pd : String → Option Int

/-- `parse_datetime(raw)`: falsy or blank input yields `None`; otherwise the
stripped value goes to the standard-library parsers. -/
def parse_datetime (o : Oracles) (raw : Option String) : Option Int :=
  match raw with
  | none => none
  | some s =>
    let value := pyStrip s
    if value = "" then none else o.pd value

/-- The Atom `link`-selection loop of `parse_atom_entries`: prefer the first
link with non-empty `href` whose `rel` (default `alternate`) is `alternate`;
otherwise keep the first non-empty `href` seen. -/
def atomLink : List Xml → String → String
  | [], link => link
  | c :: rest, link =>
    if tag_name c.tag ≠ "link" then atomLink rest link
    else
      let href := pyStrip ((attrGet c "href").getD "")
      let rel := pyLower (pyStrip ((attrGet c "rel").getD "alternate"))
      if href ≠ "" ∧ rel = "alternate" then href
      else if href ≠ "" ∧ link = "" then atomLink rest href
      else atomLink rest link

/-- One RSS `item` element decoded into an `Entry`.  `ce` is the script's
`clean_excerpt` applied at its call-site defaults. -/
def rssItemEntry (o : Oracles) (ce : Option String → String) (item : Xml) : Entry :=
  let title := (first_child_text item ["title"]).getD "(untitled)"
  let link := (first_child_text item ["link"]).or (first_child_text item ["guid"])
  let summary := first_child_text item ["description", "summary", "encoded"]
  let published_raw := first_child_text item ["pubDate", "published", "updated", "date"]
  { title := title
    url := normalize_url link o.split
    summary := ce summary
    published_at := parse_datetime o published_raw }

/-- `parse_rss_entries(root)`: iterate the `item` children of the first
`channel` child. -/
def parse_rss_entries (o : Oracles) (ce : Option String → String) (root : Xml) :
    List Entry :=
  match first_child root ["channel"] with
  | none => []
  | some channel =>
    (channel.children.filter fun item => tag_name item.tag = "item").map
      (rssItemEntry o ce)

/-- One Atom `entry` element decoded into an `Entry`. -/
def atomItemEntry (o : Oracles) (ce : Option String → String) (entry : Xml) : Entry :=
  let title := (first_child_text entry ["title"]).getD "(untitled)"
  let link := atomLink entry.children ""
  let summary := first_child_text entry ["summary", "content"]
  let published_raw := first_child_text entry ["published", "updated", "created", "date"]
  { title := title
    url := normalize_url (some link) o.split
    summary := ce summary
    published_at := parse_datetime o published_raw }

/-- `parse_atom_entries(root)`: iterate the `entry` children of the root. -/
def parse_atom_entries (o : Oracles) (ce : Option String → String) (root : Xml) :
    List Entry :=
  (root.children.filter fun entry => tag_name entry.tag = "entry").map
    (atomItemEntry o ce)

/-- `parse_feed(xml_blob)` after `ET.fromstring` succeeded: dispatch on the
lowercased local name of the root element; an unrecognized root raises
`ValueError(f"Unsupported feed format: ...")`, modelled as `Except.error`
carrying `str(exc)`. -/
def parse_feed (o : Oracles) (ce : Option String → String) (root : Xml) :
    Except String (List Entry) :=
  let root_tag := pyLower (tag_name root.tag)
  if root_tag = "rss" ∨ root_tag = "rdf" then .ok (parse_rss_entries o ce root)
  else if root_tag = "feed" then .ok (parse_atom_entries o ce root)
  else .error ("Unsupported feed format: " ++ root_tag)

/-! ### Persisted state: `load_state` and the fields read from it -/

/-- A JSON document, as produced by `json.loads`. -/
inductive Json where
  | obj (fields : List (String × Json))
  | arr (items : List Json)
  | str (s : String)
  | num (n : Int)
  | jbool (b : Bool)
  | null
deriving Repr

/-- `load_state(path)`: a missing file (`none`) or one whose text fails
`json.loads` with `JSONDecodeError` (`some none`) yields `{}`; otherwise the
decoded document is returned as-is (whatever its shape). -/
def load_state (file : Option (Option Json)) : Json :=
  match file with
  | none => .obj []
  | some none => .obj []
  | some (some j) => j

/-- `state.get(key)` / `state.get(key, default)`: defined only on JSON
objects; on any other value Python raises `AttributeError`. -/
def dictGet (state : Json) (key : String) : Except String (Option Json) :=
  match state with
  | .obj fields => .ok ((fields.find? fun kv => kv.1 = key).map (·.2))
  | _ => .error "AttributeError: get"

/-- Python truthiness of a JSON value. -/
def jsonFalsy : Json → Bool
  | .obj fields => fields.isEmpty
  | .arr items => items.isEmpty
  | .str s => s = ""
  | .num n => n = 0
  | .jbool b => !b
  | .null => true

/-- `parse_datetime(state.get("last_run"))` at the JSON level: a missing key
or falsy value yields `None`; a truthy string is stripped and parsed; a
truthy non-string raises `AttributeError` at `raw.strip()`. -/
def lastRunOfJson (o : Oracles) (v : Option Json) : Except String (Option Int) :=
  match v with
  | none => .ok none
  | some j =>
    if jsonFalsy j then .ok none
    else
      match j with
      | .str s => .ok (parse_datetime o (some s))
      | _ => .error "AttributeError: strip"

/-- `set(state.get("seen_urls", []))` at the JSON level: a missing key is
`[]`; a list keeps its string members (non-string members can never equal a
canonical URL, so dropping them preserves the membership semantics of the
seen-set); a string iterates into its characters; any other truthy value
raises `TypeError`, and falsy non-iterables too (`set(0)` raises). -/
def seenUrlsOfJson (v : Option Json) : Except String (List String) :=
  match v with
  | none => .ok []
  | some (.arr items) =>
    .ok (items.filterMap fun j => match j with | .str s => some s | _ => none)
  | some (.str s) => .ok (s.toList.map String.singleton)
  | some _ => .error "TypeError: not iterable"

/-! ### Seen-set / window engine: `prune_seen` and `collect_digest` -/

/-- The loop of `prune_seen`: walk `observed + existing` keeping first
occurrences of non-empty URLs, breaking once the output has reached
`limit` elements (the breaking element is kept: Python appends, then
checks `len(out) >= limit`). -/
def pruneGo (limit : Nat) : List String → List String → List String → List String
  | [], _seen, out => out
  | url :: rest, seen, out =>
    if url = "" ∨ url ∈ seen then pruneGo limit rest seen out
    else if limit ≤ out.length + 1 then out ++ [url]
    else pruneGo limit rest (url :: seen) (out ++ [url])

/-- `prune_seen(observed, existing, limit=2500)` from both scripts. -/
def prune_seen (observed existing : List String) (limit : Nat := 2500) : List String :=
  pruneGo limit (observed ++ existing) [] []

/-- Static source configuration (an element of `SOURCES`). -/
structure SourceCfg where
  id : String
  name : String
  feed : String
deriving DecidableEq, Repr

/-- A surfaced post (an element of `new_posts`).  `published_at` models the
`isoformat` string (`None` stays `None`); the final sort re-parses it, which
is the identity on aware datetimes. -/
structure Post where
  source_id : String
  source_name : String
  title : String
  url : String
  published_at : Option Int
  excerpt : String
deriving DecidableEq, Repr

/-- One element of the `sources` list of the result. -/
structure SourceResult where
  source_id : String
  source_name : String
  feed : String
  new_posts : List Post
  new_count : Nat
  fetched_count : Nat
  error : Option String
deriving DecidableEq, Repr

/-- The argparse surface consumed by the engine.  `since_hours` and
`grace_hours` are the `dt.timedelta(hours=...)` durations as `Int` time
units; `max_posts_per_source` is the per-source cap (a negative Python value
behaves like 0: the `>=` cap test is always true). -/
structure Args where
  since_hours : Int
  grace_hours : Int
  max_posts_per_source : Nat
  no_state_update : Bool
deriving Repr

/-- The state fields as consumed by `collect_digest`:
`last_run = parse_datetime(state.get("last_run"))` (`none` covers a missing
or unparseable value) and `seen_urls = state.get("seen_urls", [])`. -/
structure PyState where
  last_run : Option Int
  seen_urls : List String
deriving DecidableEq, Repr

/-- `window_start` computation at the top of `collect_digest`. -/
def windowStartOf (args : Args) (state : PyState) (now : Int) : Int :=
  match state.last_run with
  | some lr => lr - args.grace_hours
  | none => now - args.since_hours

/-- `is_recent = published_at is None or published_at >= window_start`. -/
def entryIsRecent (ws : Int) (e : Entry) : Bool :=
  match e.published_at with
  | none => true
  | some t => ws ≤ t

/-- The `post = {...}` dictionary built for an emitted entry
(`entry.get("title") or "(untitled)"` re-applies the falsy fallback;
`entry.get("summary") or ""` is the identity on strings). -/
def mkPost (src : SourceCfg) (e : Entry) : Post :=
  { source_id := src.id
    source_name := src.name
    title := if e.title = "" then "(untitled)" else e.title
    url := e.url
    published_at := e.published_at
    excerpt := e.summary }

/-- The per-source mutable state of the entry loop: the running seen-set
(membership only, so a list suffices for the Python `set`), the global
`observed_urls` log in encounter order, and this source's `new_posts`. -/
structure LoopAcc where
  seen : List String
  observed : List String
  source_posts : List Post
deriving Repr

/-- One iteration of the `for entry in entries` loop of `collect_digest`. -/
def processEntry (ws : Int) (maxp : Nat) (src : SourceCfg) (acc : LoopAcc) (e : Entry) :
    LoopAcc :=
  if e.url = "" then acc
  else
    let acc1 : LoopAcc := { acc with observed := acc.observed ++ [e.url] }
    if e.url ∈ acc1.seen then acc1
    else
      let acc2 : LoopAcc := { acc1 with seen := e.url :: acc1.seen }
      if ¬ entryIsRecent ws e then acc2
      else if maxp ≤ acc2.source_posts.length then acc2
      else { acc2 with source_posts := acc2.source_posts ++ [mkPost src e] }

/-- `datetime.min.replace(tzinfo=utc)` in the engine's time units
(0001-01-01T00:00:00Z in microseconds since the epoch): the sort key
substituted for an unknown timestamp. -/
def datetimeMin : Int := -62135596800000000

/-- The sort key `item["published_at"] or datetime.min...`. -/
def sortKey : Option Int → Int
  | some t => t
  | none => datetimeMin

/-- Stable descending insertion: `x` goes before the first element whose key
is `≤` its own.  For a stable sort (Python's Timsort) sorting descending,
the result is uniquely determined, so insertion sort with this comparison
computes exactly `list.sort(key=..., reverse=True)`. -/
def insertDesc (key : α → Int) (x : α) : List α → List α
  | [] => [x]
  | y :: ys => if key y ≤ key x then x :: y :: ys else y :: insertDesc key x ys

/-- `list.sort(key=..., reverse=True)`. -/
def sortDesc (key : α → Int) (l : List α) : List α :=
  l.foldr (insertDesc key) []

/-- The seen-set and observed-log carried across sources. -/
structure OuterSt where
  seen : List String
  observed : List String
deriving Repr

/-- One iteration of the `for source in SOURCES` loop.  The fetch outcome
(`parse_feed(request_bytes(source["feed"]))`, which can raise on network or
format errors before any state is touched) is the per-source input; on
`Except.error` the `except` branch records `str(exc)` and leaves the
seen-set and observed log untouched. -/
def processSource (ws : Int) (maxp : Nat) (st : OuterSt)
    (sf : SourceCfg × Except String (List Entry)) : OuterSt × SourceResult :=
  match sf.2 with
  | .error msg =>
    (st, { source_id := sf.1.id, source_name := sf.1.name, feed := sf.1.feed
           new_posts := [], new_count := 0, fetched_count := 0, error := some msg })
  | .ok entries =>
    let sorted := sortDesc (fun e => sortKey e.published_at) entries
    let acc := sorted.foldl (processEntry ws maxp sf.1)
      { seen := st.seen, observed := st.observed, source_posts := [] }
    ({ seen := acc.seen, observed := acc.observed },
     { source_id := sf.1.id, source_name := sf.1.name, feed := sf.1.feed
       new_posts := acc.source_posts, new_count := acc.source_posts.length
       fetched_count := entries.length, error := none })

/-- The source loop of `collect_digest`, returning the final seen/observed
state and the per-source reports in order. -/
def runSources (ws : Int) (maxp : Nat) (st : OuterSt) :
    List (SourceCfg × Except String (List Entry)) → OuterSt × List SourceResult
  | [] => (st, [])
  | sf :: rest =>
    let p := processSource ws maxp st sf
    let q := runSources ws maxp p.1 rest
    (q.1, p.2 :: q.2)

/-- The result document (`hn_top`, an external ranked-story collaborator
with no dedup/windowing logic, is out of the engine's scope). -/
structure DigestResult where
  generated_at : Int
  window_start : Int
  new_posts_total : Nat
  new_posts : List Post
  sources : List SourceResult
deriving Repr

/-- `collect_digest(args)` over already-fetched per-source outcomes:
computes the window, runs the source loop, globally re-sorts the merged new
posts (`all_new_posts` is materialized as the concatenation of the
per-source `new_posts` lists, to which the code appends in lock-step), and
computes the state to persist (`none` when `--no-state-update`). -/
def collect_digest (args : Args) (state : PyState) (now : Int)
    (fetches : List (SourceCfg × Except String (List Entry))) :
    DigestResult × Option PyState :=
  let ws := windowStartOf args state now
  let run := runSources ws args.max_posts_per_source
    { seen := state.seen_urls, observed := [] } fetches
  let allNew := sortDesc (fun p => sortKey p.published_at)
    (run.2.map SourceResult.new_posts).flatten
  ({ generated_at := now, window_start := ws, new_posts_total := allNew.length
     new_posts := allNew, sources := run.2 },
   if args.no_state_update then none
   else some { last_run := some now
               seen_urls := prune_seen run.1.observed state.seen_urls })

/-- `collect_digest` from the on-disk state document: `load_state` then the
two `state.get(...)` reads (which raise on a non-object document) feeding
the engine. -/
def collect_digest_from_file (o : Oracles) (args : Args)
    (file : Option (Option Json)) (now : Int)
    (fetches : List (SourceCfg × Except String (List Entry))) :
    Except String (DigestResult × Option PyState) := do
  let state := load_state file
  let lastRun ← (dictGet state "last_run").bind (lastRunOfJson o)
  let seen ← (dictGet state "seen_urls").bind seenUrlsOfJson
  .ok (collect_digest args { last_run := lastRun, seen_urls := seen } now fetches)

/-! ### Lemmas about `prune_seen` -/

/-- First-occurrence deduplication of non-empty strings against an initial
seen accumulator: the limit-free core of the `prune_seen` loop. -/
def dedupF : List String → List String → List String
  | [], _ => []
  | u :: rest, seen =>
    if u = "" ∨ u ∈ seen then dedupF rest seen
    else u :: dedupF rest (u :: seen)

theorem mem_dedupF {x : String} : ∀ {l seen : List String},
    x ∈ dedupF l seen ↔ x ∈ l ∧ x ≠ "" ∧ x ∉ seen := by
  intro l
  induction l with
  | nil => intro seen; simp [dedupF]
  | cons u rest ih =>
    intro seen
    by_cases h : u = "" ∨ u ∈ seen
    · rw [dedupF, if_pos h, ih]
      constructor
      · rintro ⟨hl, hne, hns⟩
        exact ⟨List.mem_cons_of_mem _ hl, hne, hns⟩
      · rintro ⟨hl, hne, hns⟩
        rcases List.mem_cons.mp hl with rfl | hl
        · rcases h with h | h
          · exact absurd h hne
          · exact absurd h hns
        · exact ⟨hl, hne, hns⟩
    · rw [dedupF, if_neg h]
      push_neg at h
      constructor
      · intro hx
        rcases List.mem_cons.mp hx with rfl | hx
        · exact ⟨List.mem_cons_self _ _, h.1, h.2⟩
        · rcases ih.mp hx with ⟨hl, hne, hns⟩
          exact ⟨List.mem_cons_of_mem _ hl, hne, fun hc => hns (List.mem_cons_of_mem _ hc)⟩
      · rintro ⟨hl, hne, hns⟩
        rcases List.mem_cons.mp hl with rfl | hl
        · exact List.mem_cons_self _ _
        · by_cases hxu : x = u
          · subst hxu; exact List.mem_cons_self _ _
          · exact List.mem_cons_of_mem _
              (ih.mpr ⟨hl, hne, fun hc => (List.mem_cons.mp hc).elim hxu hns⟩)

theorem nodup_dedupF : ∀ {l seen : List String}, (dedupF l seen).Nodup := by
  intro l
  induction l with
  | nil => intro seen; simp [dedupF]
  | cons u rest ih =>
    intro seen
    by_cases h : u = "" ∨ u ∈ seen
    · rw [dedupF, if_pos h]; exact ih
    · rw [dedupF, if_neg h]
      refine List.nodup_cons.mpr ⟨fun hc => ?_, ih⟩
      exact (mem_dedupF.mp hc).2.2 (List.mem_cons_self _ _)

theorem dedupF_sub {l seen : List String} : ∀ x ∈ dedupF l seen, x ∈ l :=
  fun _ hx => (mem_dedupF.mp hx).1

theorem length_dedupF_le : ∀ {l seen : List String}, (dedupF l seen).length ≤ l.length := by
  intro l
  induction l with
  | nil => intro seen; simp [dedupF]
  | cons u rest ih =>
    intro seen
    by_cases h : u = "" ∨ u ∈ seen
    · rw [dedupF, if_pos h]
      exact Nat.le_succ_of_le ih
    · rw [dedupF, if_neg h]
      simpa using Nat.succ_le_succ ih

theorem dedupF_eq_nil : ∀ {l seen : List String},
    (∀ x ∈ l, x = "" ∨ x ∈ seen) → dedupF l seen = [] := by
  intro l
  induction l with
  | nil => intro seen _; rfl
  | cons u rest ih =>
    intro seen h
    rw [dedupF, if_pos (h u (List.mem_cons_self _ _))]
    exact ih fun x hx => h x (List.mem_cons_of_mem _ hx)

theorem dedupF_eq_self : ∀ {l seen : List String}, l.Nodup →
    (∀ x ∈ l, x ≠ "" ∧ x ∉ seen) → dedupF l seen = l := by
  intro l
  induction l with
  | nil => intro seen _ _; rfl
  | cons u rest ih =>
    intro seen hnd h
    have hu := h u (List.mem_cons_self _ _)
    rw [dedupF, if_neg (by push_neg; exact hu)]
    congr 1
    refine ih (List.nodup_cons.mp hnd).2 fun x hx => ?_
    have hxr := h x (List.mem_cons_of_mem _ hx)
    refine ⟨hxr.1, fun hc => ?_⟩
    rcases List.mem_cons.mp hc with rfl | hc
    · exact (List.nodup_cons.mp hnd).1 hx
    · exact hxr.2 hc

theorem dedupF_append_split : ∀ (a b seen : List String),
    ∃ rest, dedupF (a ++ b) seen = dedupF a seen ++ rest ∧ ∀ x ∈ rest, x ∈ b := by
  intro a
  induction a with
  | nil =>
    intro b seen
    exact ⟨dedupF b seen, by simp [dedupF], fun x hx => dedupF_sub x hx⟩
  | cons u rest ih =>
    intro b seen
    by_cases h : u = "" ∨ u ∈ seen
    · obtain ⟨r, hr, hrb⟩ := ih b seen
      exact ⟨r, by rw [List.cons_append, dedupF, if_pos h, dedupF, if_pos h, hr], hrb⟩
    · obtain ⟨r, hr, hrb⟩ := ih b (u :: seen)
      exact ⟨r, by rw [List.cons_append, dedupF, if_neg h, dedupF, if_neg h, hr,
        List.cons_append], hrb⟩

theorem pruneGo_eq (limit : Nat) : ∀ (l seen out : List String),
    out.length < limit →
    pruneGo limit l seen out = out ++ (dedupF l seen).take (limit - out.length) := by
  intro l
  induction l with
  | nil => intro seen out _; simp [pruneGo, dedupF]
  | cons u rest ih =>
    intro seen out hlt
    by_cases h : u = "" ∨ u ∈ seen
    · rw [pruneGo, if_pos h, dedupF, if_pos h]
      exact ih seen out hlt
    · rw [pruneGo, if_neg h, dedupF, if_neg h]
      by_cases hcap : limit ≤ out.length + 1
      · rw [if_pos hcap]
        have hone : limit - out.length = 1 := by omega
        rw [hone]
        simp
      · rw [if_neg hcap]
        rw [ih (u :: seen) (out ++ [u]) (by simp; omega)]
        simp only [List.length_append, List.length_cons, List.length_nil]
        rw [List.append_assoc]
        congr 1
        have : limit - out.length = (limit - (out.length + 1)) + 1 := by omega
        rw [this, List.take_succ_cons]
        rfl

theorem prune_seen_eq (observed existing : List String) {limit : Nat}
    (hl : 1 ≤ limit) :
    prune_seen observed existing limit
      = (dedupF (observed ++ existing) []).take limit := by
  rw [prune_seen, pruneGo_eq limit _ [] [] (by simpa using hl)]
  simp

theorem prune_seen_nodup (observed existing : List String) {limit : Nat}
    (hl : 1 ≤ limit) : (prune_seen observed existing limit).Nodup := by
  rw [prune_seen_eq observed existing hl]
  exact nodup_dedupF.sublist (List.take_sublist _ _)

theorem prune_seen_length_le (observed existing : List String) {limit : Nat}
    (hl : 1 ≤ limit) : (prune_seen observed existing limit).length ≤ limit := by
  rw [prune_seen_eq observed existing hl]
  simp

/-! ### Lemmas about `sortDesc` -/

theorem insertDesc_perm (key : α → Int) (x : α) :
    ∀ l : List α, (insertDesc key x l).Perm (x :: l) := by
  intro l
  induction l with
  | nil => exact List.Perm.refl _
  | cons y ys ih =>
    rw [insertDesc]
    by_cases h : key y ≤ key x
    · rw [if_pos h]
    · rw [if_neg h]
      exact (ih.cons y).trans (List.Perm.swap x y ys)

theorem sortDesc_perm (key : α → Int) : ∀ l : List α, (sortDesc key l).Perm l := by
  intro l
  induction l with
  | nil => exact List.Perm.refl _
  | cons y ys ih =>
    exact (insertDesc_perm key y (sortDesc key ys)).trans (ih.cons y)

theorem mem_sortDesc {key : α → Int} {l : List α} {x : α} :
    x ∈ sortDesc key l ↔ x ∈ l :=
  (sortDesc_perm key l).mem_iff

theorem sortDesc_const {key : α → Int} {c : Int} : ∀ {l : List α},
    (∀ x ∈ l, key x = c) → sortDesc key l = l := by
  intro l
  induction l with
  | nil => intro _; rfl
  | cons y ys ih =>
    intro h
    rw [sortDesc, List.foldr_cons]
    have hys : sortDesc key ys = ys := ih fun x hx => h x (List.mem_cons_of_mem _ hx)
    rw [sortDesc] at hys
    rw [hys]
    cases ys with
    | nil => rfl
    | cons z zs =>
      rw [insertDesc, if_pos ?hle]
      case hle =>
        rw [h z (List.mem_cons_of_mem _ (List.mem_cons_self _ _)),
          h y (List.mem_cons_self _ _)]

/-! ### Branch lemmas for `processEntry` -/

/-- The result shape of the stale / capped branches (URL marked seen and
observed, nothing emitted). -/
def markOnly (acc : LoopAcc) (e : Entry) : LoopAcc :=
  { acc with
      seen := e.url :: acc.seen
      observed := acc.observed ++ [e.url] }

/-- The result shape of the emitting branch. -/
def markEmit (src : SourceCfg) (acc : LoopAcc) (e : Entry) : LoopAcc :=
  { acc with
      seen := e.url :: acc.seen
      observed := acc.observed ++ [e.url]
      source_posts := acc.source_posts ++ [mkPost src e] }

theorem processEntry_of_empty (ws : Int) (maxp : Nat) (src : SourceCfg)
    (acc : LoopAcc) (e : Entry) (h : e.url = "") :
    processEntry ws maxp src acc e = acc := by
  simp [processEntry, h]

theorem processEntry_of_seen (ws : Int) (maxp : Nat) (src : SourceCfg)
    (acc : LoopAcc) (e : Entry) (h1 : e.url ≠ "") (h2 : e.url ∈ acc.seen) :
    processEntry ws maxp src acc e = { acc with observed := acc.observed ++ [e.url] } := by
  simp [processEntry, h1, h2]

theorem processEntry_of_stale (ws : Int) (maxp : Nat) (src : SourceCfg)
    (acc : LoopAcc) (e : Entry) (h1 : e.url ≠ "") (h2 : e.url ∉ acc.seen)
    (h3 : entryIsRecent ws e = false) :
    processEntry ws maxp src acc e = markOnly acc e := by
  simp [processEntry, markOnly, h1, h2, h3]

theorem processEntry_of_capped (ws : Int) (maxp : Nat) (src : SourceCfg)
    (acc : LoopAcc) (e : Entry) (h1 : e.url ≠ "") (h2 : e.url ∉ acc.seen)
    (h3 : entryIsRecent ws e = true) (h4 : maxp ≤ acc.source_posts.length) :
    processEntry ws maxp src acc e = markOnly acc e := by
  simp [processEntry, markOnly, h1, h2, h3, h4]

theorem processEntry_of_emit (ws : Int) (maxp : Nat) (src : SourceCfg)
    (acc : LoopAcc) (e : Entry) (h1 : e.url ≠ "") (h2 : e.url ∉ acc.seen)
    (h3 : entryIsRecent ws e = true) (h4 : acc.source_posts.length < maxp) :
    processEntry ws maxp src acc e = markEmit src acc e := by
  simp [processEntry, markEmit, h1, h2, h3, Nat.not_le.mpr h4]

/-- Every branch of `processEntry`, as a disjunction of result shapes. -/
theorem processEntry_cases (ws : Int) (maxp : Nat) (src : SourceCfg)
    (acc : LoopAcc) (e : Entry) :
    (processEntry ws maxp src acc e = acc ∧ e.url = "") ∨
    processEntry ws maxp src acc e = { acc with observed := acc.observed ++ [e.url] } ∨
    processEntry ws maxp src acc e = markOnly acc e ∨
    (processEntry ws maxp src acc e = markEmit src acc e ∧
      e.url ∉ acc.seen ∧ e.url ≠ "") := by
  by_cases h1 : e.url = ""
  · exact Or.inl ⟨processEntry_of_empty ws maxp src acc e h1, h1⟩
  by_cases h2 : e.url ∈ acc.seen
  · exact Or.inr (Or.inl (processEntry_of_seen ws maxp src acc e h1 h2))
  by_cases h3 : entryIsRecent ws e
  · by_cases h4 : maxp ≤ acc.source_posts.length
    · exact Or.inr (Or.inr (Or.inl (processEntry_of_capped ws maxp src acc e h1 h2 h3 h4)))
    · exact Or.inr (Or.inr (Or.inr
        ⟨processEntry_of_emit ws maxp src acc e h1 h2 h3 (Nat.not_le.mp h4), h2, h1⟩))
  · exact Or.inr (Or.inr (Or.inl
      (processEntry_of_stale ws maxp src acc e h1 h2 (by simpa using h3))))

theorem processEntry_seen_mono {ws : Int} {maxp : Nat} {src : SourceCfg}
    {acc : LoopAcc} {e : Entry} {u : String} (h : u ∈ acc.seen) :
    u ∈ (processEntry ws maxp src acc e).seen := by
  rcases processEntry_cases ws maxp src acc e with ⟨hc, _⟩ | hc | hc | ⟨hc, _, _⟩ <;>
    rw [hc] <;> first
      | exact h
      | exact List.mem_cons_of_mem _ h

theorem processEntry_observed_ext (ws : Int) (maxp : Nat) (src : SourceCfg)
    (acc : LoopAcc) (e : Entry) :
    ∃ t, (processEntry ws maxp src acc e).observed = acc.observed ++ t := by
  rcases processEntry_cases ws maxp src acc e with ⟨hc, _⟩ | hc | hc | ⟨hc, _, _⟩ <;> rw [hc]
  · exact ⟨[], by simp⟩
  · exact ⟨[e.url], rfl⟩
  · exact ⟨[e.url], rfl⟩
  · exact ⟨[e.url], rfl⟩

theorem processEntry_mem_observed (ws : Int) (maxp : Nat) (src : SourceCfg)
    (acc : LoopAcc) (e : Entry) (hne : e.url ≠ "") :
    e.url ∈ (processEntry ws maxp src acc e).observed := by
  rcases processEntry_cases ws maxp src acc e with ⟨hc, h⟩ | hc | hc | ⟨hc, _, _⟩
  · exact absurd h hne
  all_goals rw [hc]; exact List.mem_append_right _ (List.mem_singleton.mpr rfl)

theorem processEntry_posts_sub {ws : Int} {maxp : Nat} {src : SourceCfg}
    {acc : LoopAcc} {e : Entry} :
    ∀ p ∈ (processEntry ws maxp src acc e).source_posts,
      p ∈ acc.source_posts ∨ (p = mkPost src e ∧ e.url ∉ acc.seen ∧ e.url ≠ "") := by
  intro p hp
  rcases processEntry_cases ws maxp src acc e with ⟨hc, _⟩ | hc | hc | ⟨hc, h2, h1⟩ <;>
    rw [hc] at hp
  · exact Or.inl hp
  · exact Or.inl hp
  · exact Or.inl hp
  · rcases List.mem_append.mp hp with hp | hp
    · exact Or.inl hp
    · exact Or.inr ⟨List.mem_singleton.mp hp, h2, h1⟩

/-! ### Fold lemmas for the entry loop -/

theorem foldl_pe_seen_mono {ws : Int} {maxp : Nat} {src : SourceCfg} :
    ∀ (es : List Entry) (acc : LoopAcc) (u : String), u ∈ acc.seen →
      u ∈ (es.foldl (processEntry ws maxp src) acc).seen := by
  intro es
  induction es with
  | nil => intro acc u h; exact h
  | cons e rest ih =>
    intro acc u h
    exact ih _ u (processEntry_seen_mono h)

theorem foldl_pe_observed_mono {ws : Int} {maxp : Nat} {src : SourceCfg} :
    ∀ (es : List Entry) (acc : LoopAcc) (u : String), u ∈ acc.observed →
      u ∈ (es.foldl (processEntry ws maxp src) acc).observed := by
  intro es
  induction es with
  | nil => intro acc u h; exact h
  | cons e rest ih =>
    intro acc u h
    refine ih _ u ?_
    obtain ⟨t, ht⟩ := processEntry_observed_ext ws maxp src acc e
    rw [ht]
    exact List.mem_append_left _ h

theorem foldl_pe_mem_observed {ws : Int} {maxp : Nat} {src : SourceCfg} :
    ∀ (es : List Entry) (acc : LoopAcc) (e : Entry), e ∈ es → e.url ≠ "" →
      e.url ∈ (es.foldl (processEntry ws maxp src) acc).observed := by
  intro es
  induction es with
  | nil => intro acc e h; cases h
  | cons f rest ih =>
    intro acc e he hne
    rcases List.mem_cons.mp he with rfl | he
    · exact foldl_pe_observed_mono rest _ e.url
        (processEntry_mem_observed ws maxp src acc e hne)
    · exact ih _ e he hne

theorem foldl_pe_posts_fresh {ws : Int} {maxp : Nat} {src : SourceCfg} :
    ∀ (es : List Entry) (acc : LoopAcc) (p : Post),
      p ∈ (es.foldl (processEntry ws maxp src) acc).source_posts →
      p ∈ acc.source_posts ∨
        (p.url ∉ acc.seen ∧ ∃ e ∈ es, p.url = e.url ∧ e.url ≠ "") := by
  intro es
  induction es with
  | nil => intro acc p h; exact Or.inl h
  | cons e rest ih =>
    intro acc p hp
    rcases ih _ p hp with hp1 | ⟨hfresh, f, hf, hurl, hne⟩
    · rcases processEntry_posts_sub p hp1 with hp2 | ⟨rfl, h2, h1⟩
      · exact Or.inl hp2
      · exact Or.inr ⟨h2, e, List.mem_cons_self _ _, rfl, h1⟩
    · refine Or.inr ⟨fun hc => hfresh (processEntry_seen_mono hc), f,
        List.mem_cons_of_mem _ hf, hurl, hne⟩

/-- Invariant of the entry loop: the emitted posts of this source have
pairwise-distinct URLs, all of which are in the running seen-set. -/
def PostsInv (acc : LoopAcc) : Prop :=
  (acc.source_posts.map Post.url).Nodup ∧ ∀ p ∈ acc.source_posts, p.url ∈ acc.seen

theorem processEntry_posts_inv {ws : Int} {maxp : Nat} {src : SourceCfg}
    {acc : LoopAcc} {e : Entry} (h : PostsInv acc) :
    PostsInv (processEntry ws maxp src acc e) := by
  obtain ⟨hnd, hsub⟩ := h
  rcases processEntry_cases ws maxp src acc e with ⟨hc, _⟩ | hc | hc | ⟨hc, h2, _⟩ <;> rw [hc]
  · exact ⟨hnd, hsub⟩
  · exact ⟨hnd, hsub⟩
  · exact ⟨hnd, fun p hp => List.mem_cons_of_mem _ (hsub p hp)⟩
  · constructor
    · rw [markEmit, List.map_append]
      refine hnd.append (by simp) ?_
      intro u hu hu2
      simp only [List.map_cons, List.map_nil, List.mem_singleton] at hu2
      rcases List.mem_map.mp hu with ⟨p, hp, rfl⟩
      have hpe : p.url = e.url := by simpa [mkPost] using hu2
      exact h2 (hpe ▸ hsub p hp)
    · intro p hp
      rcases List.mem_append.mp hp with hp | hp
      · exact List.mem_cons_of_mem _ (hsub p hp)
      · rw [List.mem_singleton.mp hp]
        exact List.mem_cons_self _ _

theorem foldl_pe_posts_inv {ws : Int} {maxp : Nat} {src : SourceCfg} :
    ∀ (es : List Entry) (acc : LoopAcc), PostsInv acc →
      PostsInv (es.foldl (processEntry ws maxp src) acc) := by
  intro es
  induction es with
  | nil => intro acc h; exact h
  | cons e rest ih => intro acc h; exact ih _ (processEntry_posts_inv h)

theorem foldl_pe_skip_all {ws : Int} {maxp : Nat} {src : SourceCfg} :
    ∀ (es : List Entry) (acc : LoopAcc),
      (∀ e ∈ es, e.url ≠ "" ∧ e.url ∈ acc.seen) →
      es.foldl (processEntry ws maxp src) acc
        = { acc with observed := acc.observed ++ es.map Entry.url } := by
  intro es
  induction es with
  | nil => intro acc _; simp
  | cons e rest ih =>
    intro acc h
    have he := h e (List.mem_cons_self _ _)
    rw [List.foldl_cons, processEntry_of_seen ws maxp src acc e he.1 he.2]
    rw [ih { acc with observed := acc.observed ++ [e.url] }
      (fun f hf => h f (List.mem_cons_of_mem _ hf))]
    simp

/-! ### Lemmas for the source loop -/

/-- The per-source record produced by the `except` branch. -/
def errorResult (src : SourceCfg) (msg : String) : SourceResult :=
  { source_id := src.id, source_name := src.name, feed := src.feed
    new_posts := [], new_count := 0, fetched_count := 0, error := some msg }

theorem processSource_error (ws : Int) (maxp : Nat) (st : OuterSt)
    (src : SourceCfg) (msg : String) :
    processSource ws maxp st (src, .error msg) = (st, errorResult src msg) := rfl

/-- The entry loop underlying the `Except.ok` branch of `processSource`. -/
def innerFold (ws : Int) (maxp : Nat) (src : SourceCfg) (st : OuterSt)
    (entries : List Entry) : LoopAcc :=
  (sortDesc (fun e => sortKey e.published_at) entries).foldl (processEntry ws maxp src)
    { seen := st.seen, observed := st.observed, source_posts := [] }

theorem processSource_ok (ws : Int) (maxp : Nat) (st : OuterSt)
    (src : SourceCfg) (entries : List Entry) :
    processSource ws maxp st (src, .ok entries)
      = ({ seen := (innerFold ws maxp src st entries).seen
           observed := (innerFold ws maxp src st entries).observed },
         { source_id := src.id, source_name := src.name, feed := src.feed
           new_posts := (innerFold ws maxp src st entries).source_posts
           new_count := (innerFold ws maxp src st entries).source_posts.length
           fetched_count := entries.length, error := none }) := rfl

theorem processSource_seen_mono {ws : Int} {maxp : Nat} {st : OuterSt}
    {sf : SourceCfg × Except String (List Entry)} {u : String} (h : u ∈ st.seen) :
    u ∈ (processSource ws maxp st sf).1.seen := by
  obtain ⟨src, fr⟩ := sf
  cases fr with
  | error msg => exact h
  | ok entries =>
    rw [processSource_ok]
    exact foldl_pe_seen_mono _ _ u h

theorem processSource_observed_mono {ws : Int} {maxp : Nat} {st : OuterSt}
    {sf : SourceCfg × Except String (List Entry)} {u : String} (h : u ∈ st.observed) :
    u ∈ (processSource ws maxp st sf).1.observed := by
  obtain ⟨src, fr⟩ := sf
  cases fr with
  | error msg => exact h
  | ok entries =>
    rw [processSource_ok]
    exact foldl_pe_observed_mono _ _ u h

theorem processSource_posts_fresh {ws : Int} {maxp : Nat} {st : OuterSt}
    {sf : SourceCfg × Except String (List Entry)} :
    ∀ p ∈ (processSource ws maxp st sf).2.new_posts,
      p.url ∉ st.seen ∧ p.url ∈ (processSource ws maxp st sf).1.seen ∧ p.url ≠ "" := by
  obtain ⟨src, fr⟩ := sf
  cases fr with
  | error msg => intro p hp; cases hp
  | ok entries =>
    rw [processSource_ok]
    intro p hp
    have hinv := @foldl_pe_posts_inv ws maxp src
      (sortDesc (fun e => sortKey e.published_at) entries)
      { seen := st.seen, observed := st.observed, source_posts := [] }
      ⟨by simp, by simp⟩
    rcases foldl_pe_posts_fresh _ _ p hp with hnil | ⟨hfresh, e, _, hurl, hne⟩
    · cases hnil
    · exact ⟨hfresh, hinv.2 p hp, hurl ▸ hne⟩

theorem processSource_posts_nodup {ws : Int} {maxp : Nat} {st : OuterSt}
    {sf : SourceCfg × Except String (List Entry)} :
    ((processSource ws maxp st sf).2.new_posts.map Post.url).Nodup := by
  obtain ⟨src, fr⟩ := sf
  cases fr with
  | error msg => simp [processSource_error, errorResult]
  | ok entries =>
    rw [processSource_ok]
    exact (@foldl_pe_posts_inv ws maxp src
      (sortDesc (fun e => sortKey e.published_at) entries)
      { seen := st.seen, observed := st.observed, source_posts := [] }
      ⟨by simp, by simp⟩).1

theorem processSource_no_new {ws : Int} {maxp : Nat} {st : OuterSt}
    {src : SourceCfg} {entries : List Entry}
    (h : ∀ e ∈ entries, e.url = "" ∨ e.url ∈ st.seen) :
    (processSource ws maxp st (src, .ok entries)).2.new_posts = [] := by
  rw [processSource_ok]
  rw [List.eq_nil_iff_forall_not_mem]
  intro p hp
  rcases foldl_pe_posts_fresh _ _ p hp with hnil | ⟨hfresh, e, he, hurl, hne⟩
  · cases hnil
  · rcases h e (mem_sortDesc.mp he) with h1 | h1
    · exact hne h1
    · exact hfresh (hurl ▸ h1)

theorem processSource_mem_observed {ws : Int} {maxp : Nat} {st : OuterSt}
    {src : SourceCfg} {entries : List Entry} {e : Entry}
    (he : e ∈ entries) (hne : e.url ≠ "") :
    e.url ∈ (processSource ws maxp st (src, .ok entries)).1.observed := by
  rw [processSource_ok]
  exact foldl_pe_mem_observed _ _ e (mem_sortDesc.mpr he) hne

theorem runSources_nil (ws : Int) (maxp : Nat) (st : OuterSt) :
    runSources ws maxp st [] = (st, []) := rfl

theorem runSources_cons (ws : Int) (maxp : Nat) (st : OuterSt)
    (sf : SourceCfg × Except String (List Entry))
    (rest : List (SourceCfg × Except String (List Entry))) :
    runSources ws maxp st (sf :: rest)
      = ((runSources ws maxp (processSource ws maxp st sf).1 rest).1,
         (processSource ws maxp st sf).2
           :: (runSources ws maxp (processSource ws maxp st sf).1 rest).2) := rfl

theorem runSources_seen_mono {ws : Int} {maxp : Nat} :
    ∀ (fs : List (SourceCfg × Except String (List Entry))) (st : OuterSt) (u : String),
      u ∈ st.seen → u ∈ (runSources ws maxp st fs).1.seen := by
  intro fs
  induction fs with
  | nil => intro st u h; exact h
  | cons sf rest ih =>
    intro st u h
    rw [runSources_cons]
    exact ih _ u (processSource_seen_mono h)

theorem runSources_observed_mono {ws : Int} {maxp : Nat} :
    ∀ (fs : List (SourceCfg × Except String (List Entry))) (st : OuterSt) (u : String),
      u ∈ st.observed → u ∈ (runSources ws maxp st fs).1.observed := by
  intro fs
  induction fs with
  | nil => intro st u h; exact h
  | cons sf rest ih =>
    intro st u h
    rw [runSources_cons]
    exact ih _ u (processSource_observed_mono h)

theorem runSources_posts_fresh {ws : Int} {maxp : Nat} :
    ∀ (fs : List (SourceCfg × Except String (List Entry))) (st : OuterSt)
      (r : SourceResult) (p : Post), r ∈ (runSources ws maxp st fs).2 →
      p ∈ r.new_posts →
      p.url ∉ st.seen ∧ p.url ∈ (runSources ws maxp st fs).1.seen ∧ p.url ≠ "" := by
  intro fs
  induction fs with
  | nil => intro st r p hr; cases hr
  | cons sf rest ih =>
    intro st r p hr hp
    rw [runSources_cons] at hr ⊢
    rcases List.mem_cons.mp hr with rfl | hr
    · obtain ⟨h1, h2, h3⟩ := processSource_posts_fresh p hp
      exact ⟨h1, runSources_seen_mono rest _ _ h2, h3⟩
    · obtain ⟨h1, h2, h3⟩ := ih _ r p hr hp
      exact ⟨fun hc => h1 (processSource_seen_mono hc), h2, h3⟩

theorem runSources_flatten_nodup {ws : Int} {maxp : Nat} :
    ∀ (fs : List (SourceCfg × Except String (List Entry))) (st : OuterSt),
      ((((runSources ws maxp st fs).2.map SourceResult.new_posts).flatten).map
        Post.url).Nodup := by
  intro fs
  induction fs with
  | nil => intro st; simp [runSources_nil]
  | cons sf rest ih =>
    intro st
    rw [runSources_cons]
    simp only [List.map_cons, List.flatten_cons, List.map_append]
    refine (processSource_posts_nodup).append (ih _) ?_
    intro u hu hu2
    rcases List.mem_map.mp hu with ⟨p, hp, rfl⟩
    rcases List.mem_map.mp hu2 with ⟨p2, hp2, hur⟩
    rcases List.mem_flatten.mp hp2 with ⟨posts, hposts, hp3⟩
    rcases List.mem_map.mp hposts with ⟨r, hr, rfl⟩
    have hfresh := (runSources_posts_fresh rest _ r p2 hr hp3).1
    have hseen := (processSource_posts_fresh p hp).2.1
    exact hfresh (hur ▸ hseen)

theorem runSources_no_new {ws : Int} {maxp : Nat} :
    ∀ (fs : List (SourceCfg × Except String (List Entry))) (st : OuterSt),
      (∀ sf ∈ fs, ∀ es, sf.2 = Except.ok es → ∀ e ∈ es, e.url = "" ∨ e.url ∈ st.seen) →
      ((runSources ws maxp st fs).2.map SourceResult.new_posts).flatten = [] := by
  intro fs
  induction fs with
  | nil => intro st _; simp [runSources_nil]
  | cons sf rest ih =>
    intro st h
    rw [runSources_cons]
    simp only [List.map_cons, List.flatten_cons, List.append_eq_nil]
    constructor
    · obtain ⟨sc, fr⟩ := sf
      cases fr with
      | error msg => simp [processSource_error, errorResult]
      | ok es =>
        exact processSource_no_new
          (h (sc, .ok es) (List.mem_cons_self _ _) es rfl)
    · refine ih _ fun sf2 hsf2 es hes e he => ?_
      rcases h sf2 (List.mem_cons_of_mem _ hsf2) es hes e he with h1 | h1
      · exact Or.inl h1
      · exact Or.inr (processSource_seen_mono h1)

theorem runSources_mem_observed {ws : Int} {maxp : Nat} :
    ∀ (fs : List (SourceCfg × Except String (List Entry))) (st : OuterSt)
      (sc : SourceCfg) (es : List Entry) (e : Entry),
      (sc, Except.ok es) ∈ fs → e ∈ es → e.url ≠ "" →
      e.url ∈ (runSources ws maxp st fs).1.observed := by
  intro fs
  induction fs with
  | nil => intro st sc es e h; cases h
  | cons sf rest ih =>
    intro st sc es e hsf he hne
    rw [runSources_cons]
    rcases List.mem_cons.mp hsf with rfl | hsf
    · exact runSources_observed_mono rest _ _ (processSource_mem_observed he hne)
    · exact ih _ sc es e hsf he hne

theorem runSources_append (ws : Int) (maxp : Nat) :
    ∀ (A B : List (SourceCfg × Except String (List Entry))) (st : OuterSt),
      runSources ws maxp st (A ++ B)
        = ((runSources ws maxp (runSources ws maxp st A).1 B).1,
           (runSources ws maxp st A).2
             ++ (runSources ws maxp (runSources ws maxp st A).1 B).2) := by
  intro A
  induction A with
  | nil => intro B st; simp [runSources_nil]
  | cons sf rest ih =>
    intro B st
    rw [List.cons_append, runSources_cons, ih B _, runSources_cons]
    simp

/-! ### Projection lemmas for `collect_digest` -/

theorem collect_digest_generated_at (args : Args) (state : PyState) (now : Int)
    (fetches : List (SourceCfg × Except String (List Entry))) :
    (collect_digest args state now fetches).1.generated_at = now := rfl

theorem collect_digest_window_start (args : Args) (state : PyState) (now : Int)
    (fetches : List (SourceCfg × Except String (List Entry))) :
    (collect_digest args state now fetches).1.window_start
      = windowStartOf args state now := rfl

theorem collect_digest_new_posts (args : Args) (state : PyState) (now : Int)
    (fetches : List (SourceCfg × Except String (List Entry))) :
    (collect_digest args state now fetches).1.new_posts
      = sortDesc (fun p => sortKey p.published_at)
          (((runSources (windowStartOf args state now) args.max_posts_per_source
              { seen := state.seen_urls, observed := [] } fetches).2.map
            SourceResult.new_posts).flatten) := rfl

theorem collect_digest_sources (args : Args) (state : PyState) (now : Int)
    (fetches : List (SourceCfg × Except String (List Entry))) :
    (collect_digest args state now fetches).1.sources
      = (runSources (windowStartOf args state now) args.max_posts_per_source
          { seen := state.seen_urls, observed := [] } fetches).2 := rfl

theorem collect_digest_state (args : Args) (state : PyState) (now : Int)
    (fetches : List (SourceCfg × Except String (List Entry)))
    (h : args.no_state_update = false) :
    (collect_digest args state now fetches).2
      = some { last_run := some now
               seen_urls := prune_seen
                 (runSources (windowStartOf args state now) args.max_posts_per_source
                   { seen := state.seen_urls, observed := [] } fetches).1.observed
                 state.seen_urls } := by
  simp [collect_digest, h]

/-! ### Claim theorems -/

/-- C3: for a not-yet-seen entry with a non-empty canonical URL (and the
per-source cap not yet reached), the entry is emitted as recent exactly when
its `published_at` is unknown or at least `window_start`; an entry timestamped
exactly at `window_start` is emitted, and one a microsecond (one time unit)
earlier is not emitted (it is only marked seen). -/
theorem C3_window_admission (ws : Int) (maxp : Nat) (src : SourceCfg)
    (acc : LoopAcc) (e : Entry)
    (h1 : e.url ≠ "") (h2 : e.url ∉ acc.seen) (hcap : acc.source_posts.length < maxp) :
    ((processEntry ws maxp src acc e).source_posts
        = acc.source_posts ++ [mkPost src e]
      ↔ (e.published_at = none ∨ ∃ t, e.published_at = some t ∧ ws ≤ t))
    ∧ (e.published_at = some ws →
        (processEntry ws maxp src acc e).source_posts
          = acc.source_posts ++ [mkPost src e])
    ∧ (e.published_at = some (ws - 1) →
        processEntry ws maxp src acc e = markOnly acc e) := by
  have hrec : entryIsRecent ws e = true
      ↔ (e.published_at = none ∨ ∃ t, e.published_at = some t ∧ ws ≤ t) := by
    cases h : e.published_at with
    | none => simp [entryIsRecent, h]
    | some t => simp [entryIsRecent, h]
  refine ⟨⟨fun hemit => ?_, fun hr => ?_⟩, fun hb => ?_, fun hb => ?_⟩
  · by_cases h3 : entryIsRecent ws e
    · exact hrec.mp h3
    · rw [processEntry_of_stale ws maxp src acc e h1 h2 (by simpa using h3)] at hemit
      simp [markOnly] at hemit
  · rw [processEntry_of_emit ws maxp src acc e h1 h2 (hrec.mpr hr) hcap]
    rfl
  · rw [processEntry_of_emit ws maxp src acc e h1 h2
      (hrec.mpr (Or.inr ⟨ws, hb, le_refl ws⟩)) hcap]
    rfl
  · have hnot : ¬ (e.published_at = none ∨ ∃ t, e.published_at = some t ∧ ws ≤ t) := by
      rintro (hn | ⟨t, ht, hle⟩)
      · rw [hn] at hb; cases hb
      · rw [ht] at hb
        injection hb with hb
        omega
    refine processEntry_of_stale ws maxp src acc e h1 h2 ?_
    cases hbool : entryIsRecent ws e
    · rfl
    · exact absurd (hrec.mp hbool) hnot

/-- Witness for C3 at a concrete input: an unseen entry dated exactly at the
window start is emitted; the same entry dated one unit earlier is not. -/
theorem C3_witness :
    ("a" : String) ≠ ""
    ∧ (processEntry 0 1 ⟨"s", "S", "f"⟩ ⟨[], [], []⟩ ⟨"t", "a", "", some 0⟩).source_posts
        = [mkPost ⟨"s", "S", "f"⟩ ⟨"t", "a", "", some 0⟩]
    ∧ (processEntry 0 1 ⟨"s", "S", "f"⟩ ⟨[], [], []⟩
        ⟨"t", "a", "", some (-1)⟩).source_posts = [] := by
  refine ⟨by decide, ?_, ?_⟩
  · have h := C3_window_admission 0 1 ⟨"s", "S", "f"⟩ ⟨[], [], []⟩ ⟨"t", "a", "", some 0⟩
      (by decide) (by simp) (by decide)
    simpa using h.2.1 rfl
  · have h := C3_window_admission 0 1 ⟨"s", "S", "f"⟩ ⟨[], [], []⟩ ⟨"t", "a", "", some (-1)⟩
      (by decide) (by simp) (by decide)
    rw [h.2.2 rfl]
    rfl

/-- C4 (counterexample): with a persisted `last_run` in the future of `now`
(clock skew or a hand-edited state file), `window_start = last_run -
grace_hours` exceeds `generated_at`, so the claim's non-futurity clause fails
(here: `last_run` ten hours ahead, the default two-hour grace). -/
theorem C4_counterexample :
    (collect_digest ⟨108000000000, 7200000000, 5, false⟩ ⟨some 36000000000, []⟩ 0
        []).1.generated_at
      < (collect_digest ⟨108000000000, 7200000000, 5, false⟩ ⟨some 36000000000, []⟩ 0
        []).1.window_start := by decide

/-- C4 (amended): `window_start` is `last_run - grace_hours` when the state
holds a (parseable) `last_run`, else `now - since_hours`, and `generated_at`
is `now`; `window_start ≤ generated_at` holds provided the durations are
non-negative and the persisted `last_run` does not lie in the future of
`now`. -/
theorem C4_window_derivation (args : Args) (state : PyState) (now : Int)
    (fetches : List (SourceCfg × Except String (List Entry))) :
    ((state.last_run = none →
        (collect_digest args state now fetches).1.window_start = now - args.since_hours)
      ∧ ∀ lr, state.last_run = some lr →
          (collect_digest args state now fetches).1.window_start = lr - args.grace_hours)
    ∧ (collect_digest args state now fetches).1.generated_at = now
    ∧ (0 ≤ args.grace_hours → 0 ≤ args.since_hours →
        (∀ lr, state.last_run = some lr → lr ≤ now) →
        (collect_digest args state now fetches).1.window_start
          ≤ (collect_digest args state now fetches).1.generated_at) := by
  rw [collect_digest_window_start, collect_digest_generated_at]
  refine ⟨⟨fun h => by rw [windowStartOf, h], fun lr h => by rw [windowStartOf, h]⟩,
    rfl, fun hg hs hlr => ?_⟩
  cases h : state.last_run with
  | none =>
    simp only [windowStartOf, h]
    omega
  | some lr =>
    have := hlr lr h
    simp only [windowStartOf, h]
    omega

/-- Witness for C4's amended theorem at a concrete input: first-run window
and the non-futurity bound under the side conditions. -/
theorem C4_witness :
    (collect_digest ⟨108000000000, 7200000000, 5, false⟩ ⟨none, []⟩ 1000
        []).1.window_start = 1000 - 108000000000
    ∧ (collect_digest ⟨108000000000, 7200000000, 5, false⟩ ⟨none, []⟩ 1000
        []).1.window_start
      ≤ (collect_digest ⟨108000000000, 7200000000, 5, false⟩ ⟨none, []⟩ 1000
        []).1.generated_at := by
  have h := C4_window_derivation ⟨108000000000, 7200000000, 5, false⟩ ⟨none, []⟩ 1000 []
  exact ⟨h.1.1 rfl, h.2.2 (by decide) (by decide) (fun lr hlr => by cases hlr)⟩

/-- C2: an unseen entry (non-empty URL) older than the window is added to the
seen-set without being emitted; and in any run whose loaded state already
lists a URL in `seen_urls`, no post with that URL is ever emitted — whatever
that run's window is. -/
theorem C2_resurfacing_prevention (ws : Int) (maxp : Nat) (src : SourceCfg)
    (acc : LoopAcc) (e : Entry) (t : Int)
    (h1 : e.url ≠ "") (h2 : e.url ∉ acc.seen) (h3 : e.published_at = some t)
    (h4 : t < ws)
    (args : Args) (state : PyState) (now : Int)
    (fetches : List (SourceCfg × Except String (List Entry))) (u : String)
    (hu : u ∈ state.seen_urls) :
    ((processEntry ws maxp src acc e).seen = e.url :: acc.seen
      ∧ (processEntry ws maxp src acc e).source_posts = acc.source_posts)
    ∧ ∀ p ∈ (collect_digest args state now fetches).1.new_posts, p.url ≠ u := by
  constructor
  · have hstale : entryIsRecent ws e = false := by
      simp [entryIsRecent, h3]
      omega
    rw [processEntry_of_stale ws maxp src acc e h1 h2 hstale]
    exact ⟨rfl, rfl⟩
  · intro p hp
    rw [collect_digest_new_posts] at hp
    have hp2 := mem_sortDesc.mp hp
    rcases List.mem_flatten.mp hp2 with ⟨posts, hposts, hp3⟩
    rcases List.mem_map.mp hposts with ⟨r, hr, rfl⟩
    have hfresh := (runSources_posts_fresh fetches _ r p hr hp3).1
    intro hc
    exact hfresh (hc ▸ hu)

/-- Witness for C2 at a concrete input: a stale entry is marked seen and not
emitted, and a run whose state lists its URL emits nothing for it. -/
theorem C2_witness :
    (processEntry 0 5 ⟨"s", "S", "f"⟩ ⟨[], [], []⟩ ⟨"t", "a", "", some (-5)⟩).seen = ["a"]
    ∧ (processEntry 0 5 ⟨"s", "S", "f"⟩ ⟨[], [], []⟩
        ⟨"t", "a", "", some (-5)⟩).source_posts = []
    ∧ ∀ p ∈ (collect_digest ⟨108000000000, 7200000000, 5, false⟩ ⟨none, ["a"]⟩ 0
        [(⟨"s", "S", "f"⟩, .ok [⟨"t", "a", "", some (-5)⟩])]).1.new_posts,
        p.url ≠ "a" := by
  have h := C2_resurfacing_prevention 0 5 ⟨"s", "S", "f"⟩ ⟨[], [], []⟩
    ⟨"t", "a", "", some (-5)⟩ (-5) (by decide) (by simp) rfl (by decide)
    ⟨108000000000, 7200000000, 5, false⟩ ⟨none, ["a"]⟩ 0
    [(⟨"s", "S", "f"⟩, .ok [⟨"t", "a", "", some (-5)⟩])] "a" (by simp)
  exact ⟨h.1.1, h.1.2, h.2⟩

/-- C10: an unseen, recent entry hitting the per-source cap is still marked
seen and observed without a post; consequently no post with its URL is
emitted by the rest of this source's loop, by the remaining sources of the
run, or by any later run whose loaded state still lists the URL. -/
theorem C10_capped_entry_marked_seen (ws : Int) (maxp : Nat) (src : SourceCfg)
    (acc : LoopAcc) (e : Entry)
    (h1 : e.url ≠ "") (h2 : e.url ∉ acc.seen) (h3 : entryIsRecent ws e = true)
    (hcap : maxp ≤ acc.source_posts.length)
    (rest : List Entry)
    (args : Args) (state : PyState) (now : Int)
    (fetches fs2 : List (SourceCfg × Except String (List Entry)))
    (st2 : OuterSt)
    (hn : e.url ∈ state.seen_urls) (hst2 : e.url ∈ st2.seen) :
    (processEntry ws maxp src acc e = markOnly acc e
      ∧ e.url ∈ (markOnly acc e).seen ∧ e.url ∈ (markOnly acc e).observed
      ∧ (markOnly acc e).source_posts = acc.source_posts)
    ∧ (∀ p ∈ (rest.foldl (processEntry ws maxp src)
          (processEntry ws maxp src acc e)).source_posts,
        p ∈ acc.source_posts ∨ p.url ≠ e.url)
    ∧ (∀ r ∈ (runSources ws maxp st2 fs2).2, ∀ p ∈ r.new_posts, p.url ≠ e.url)
    ∧ (∀ p ∈ (collect_digest args state now fetches).1.new_posts, p.url ≠ e.url) := by
  have hme := processEntry_of_capped ws maxp src acc e h1 h2 h3 hcap
  refine ⟨⟨hme, List.mem_cons_self _ _,
      List.mem_append_right _ (List.mem_singleton.mpr rfl), rfl⟩, ?_, ?_, ?_⟩
  · intro p hp
    rcases foldl_pe_posts_fresh rest _ p hp with hin | ⟨hfresh, _, _, _, _⟩
    · rw [hme] at hin
      exact Or.inl hin
    · rw [hme] at hfresh
      exact Or.inr fun hc => hfresh (hc ▸ List.mem_cons_self _ _)
  · intro r hr p hp hc
    exact (runSources_posts_fresh fs2 st2 r p hr hp).1 (hc ▸ hst2)
  · intro p hp
    rw [collect_digest_new_posts] at hp
    rcases List.mem_flatten.mp (mem_sortDesc.mp hp) with ⟨posts, hposts, hp3⟩
    rcases List.mem_map.mp hposts with ⟨r, hr, rfl⟩
    intro hc
    exact (runSources_posts_fresh fetches _ r p hr hp3).1 (hc ▸ hn)

/-- Witness for C10 at a concrete input: with the cap already reached
(`max_posts_per_source = 0`), a fresh recent entry is marked seen/observed,
emits nothing, and a later run whose state lists the URL emits nothing. -/
theorem C10_witness :
    processEntry 0 0 ⟨"s", "S", "f"⟩ ⟨[], [], []⟩ ⟨"t", "a", "", some 1⟩
      = markOnly ⟨[], [], []⟩ ⟨"t", "a", "", some 1⟩
    ∧ "a" ∈ (markOnly (⟨[], [], []⟩ : LoopAcc) (⟨"t", "a", "", some 1⟩ : Entry)).seen
    ∧ ∀ p ∈ (collect_digest ⟨108000000000, 7200000000, 0, false⟩ ⟨none, ["a"]⟩ 0
        [(⟨"s", "S", "f"⟩, .ok [⟨"t", "a", "", some 1⟩])]).1.new_posts,
        p.url ≠ "a" := by
  have h := C10_capped_entry_marked_seen 0 0 ⟨"s", "S", "f"⟩ ⟨[], [], []⟩
    ⟨"t", "a", "", some 1⟩ (by decide) (by simp) (by decide) (by decide) []
    ⟨108000000000, 7200000000, 0, false⟩ ⟨none, ["a"]⟩ 0
    [(⟨"s", "S", "f"⟩, .ok [⟨"t", "a", "", some 1⟩])] [] ⟨["a"], []⟩
    (by simp) (by simp)
  exact ⟨h.1.1, h.1.2.1, h.2.2.2⟩

/-! ### Supporting lemmas for C6 and C8 -/

theorem count_filter_ite {α : Type} [BEq α] [LawfulBEq α] (p : α → Bool) (l : List α)
    (a : α) : (l.filter p).count a = if p a then l.count a else 0 := by
  by_cases hp : p a
  · rw [if_pos hp, List.count_filter hp]
  · rw [if_neg hp, List.count_eq_zero]
    intro hc
    exact hp (List.of_mem_filter hc)

theorem runSources_length {ws : Int} {maxp : Nat} :
    ∀ (fs : List (SourceCfg × Except String (List Entry))) (st : OuterSt),
      (runSources ws maxp st fs).2.length = fs.length := by
  intro fs
  induction fs with
  | nil => intro st; rfl
  | cons sf rest ih =>
    intro st
    rw [runSources_cons]
    simp [ih]

/-- C6: after a successful split, `normalize_url` drops exactly the query
parameters whose key case-insensitively starts with `utm_` or equals `ref`
or `source`, keeps the rest in order and multiplicity, and re-joins the five
components; two URLs whose splits differ only by a `utm_source` parameter
canonicalize identically; and when the split raises, the stripped URL is
passed through unchanged (in particular it is not discarded). -/
theorem C6_normalize_url (u : String) (split : String → Option SplitResult) :
    (∀ parts, pyStrip u ≠ "" → split (pyStrip u) = some parts →
      normalize_url (some u) split
        = urlunsplit parts.scheme parts.netloc parts.path
            (urlencode (parts.query.filter fun kv => ¬ isTrackedKey kv.1))
            parts.fragment
      ∧ (∀ kv, kv ∈ parts.query.filter (fun kv => ¬ isTrackedKey kv.1)
          ↔ kv ∈ parts.query ∧ isTrackedKey kv.1 = false)
      ∧ (∀ kv : String × String,
          (parts.query.filter fun kv => ¬ isTrackedKey kv.1).count kv
            = if isTrackedKey kv.1 then 0 else parts.query.count kv))
    ∧ (pyStrip u ≠ "" → split (pyStrip u) = none →
        normalize_url (some u) split = pyStrip u ∧ normalize_url (some u) split ≠ "")
    ∧ (∀ (u2 : String) (split2 : String → Option SplitResult)
        (p1 p2 : SplitResult) (pre post : List (String × String)) (v : String),
        pyStrip u ≠ "" → pyStrip u2 ≠ "" →
        split (pyStrip u) = some p1 → split2 (pyStrip u2) = some p2 →
        p2.scheme = p1.scheme → p2.netloc = p1.netloc → p2.path = p1.path →
        p2.fragment = p1.fragment →
        p1.query = pre ++ post →
        p2.query = pre ++ ("utm_source", v) :: post →
        normalize_url (some u) split = normalize_url (some u2) split2) := by
  have hutm : isTrackedKey "utm_source" = true := by decide
  refine ⟨fun parts htrim hsplit => ⟨?_, fun kv => ?_, fun kv => ?_⟩,
    fun htrim hsplit => ⟨?_, ?_⟩, ?_⟩
  · simp [normalize_url, htrim, hsplit]
  · constructor
    · intro hkv
      have hm := List.mem_filter.mp hkv
      refine ⟨hm.1, ?_⟩
      have h2 := hm.2
      simp only [decide_eq_true_eq] at h2
      simpa using h2
    · rintro ⟨hm1, hm2⟩
      refine List.mem_filter.mpr ⟨hm1, ?_⟩
      simp [hm2]
  · rw [count_filter_ite]
    by_cases htr : isTrackedKey kv.1 <;> simp [htr]
  · simp [normalize_url, htrim, hsplit]
  · simp [normalize_url, htrim, hsplit]
  · intro u2 split2 p1 p2 pre post v ht1 ht2 hs1 hs2 hsch hnet hpath hfrag hq1 hq2
    simp only [normalize_url, hs1, hs2, hsch, hnet, hpath, hfrag]
    rw [if_neg (by simpa using ht1), if_neg (by simpa using ht2)]
    congr 1
    rw [hq1, hq2]
    simp [List.filter_append, List.filter_cons, hutm]

/-- Witness for C6 at concrete inputs: a `utm_source` parameter is stripped,
the remaining parameter survives re-joining, and a failing split passes the
URL through. -/
theorem C6_witness :
    normalize_url (some "u1")
        (fun _ => some ⟨"https", "e.com", "/p", [("utm_source", "x"), ("a", "1")], ""⟩)
      = normalize_url (some "u2")
        (fun _ => some ⟨"https", "e.com", "/p", [("a", "1")], ""⟩)
    ∧ normalize_url (some "u2")
        (fun _ => some ⟨"https", "e.com", "/p", [("a", "1")], ""⟩)
      = "https://e.com/p?a=1"
    ∧ normalize_url (some "u3") (fun _ => none) = "u3" := by
  have h2 := C6_normalize_url "u2"
    (fun _ => some ⟨"https", "e.com", "/p", [("a", "1")], ""⟩)
  have h3 := C6_normalize_url "u3" (fun _ => none)
  refine ⟨?_, ?_, by simpa using (h3.2.1 (by decide) rfl).1⟩
  · exact ((C6_normalize_url "u2"
      (fun _ => some ⟨"https", "e.com", "/p", [("a", "1")], ""⟩)).2.2 "u1"
      (fun _ => some ⟨"https", "e.com", "/p", [("utm_source", "x"), ("a", "1")], ""⟩)
      ⟨"https", "e.com", "/p", [("a", "1")], ""⟩
      ⟨"https", "e.com", "/p", [("utm_source", "x"), ("a", "1")], ""⟩
      [] [("a", "1")] "x" (by decide) (by decide) rfl rfl rfl rfl rfl rfl rfl rfl).symm
  · rw [(h2.1 ⟨"https", "e.com", "/p", [("a", "1")], ""⟩ (by decide) rfl).1]
    decide

/-- C8: a root element whose lowercased local name is not `rss`, `rdf` or
`feed` makes the decoder fail with the unsupported-format error; and a
failing source in the middle of the run only contributes an error record in
its position — the other sources' records, the merged `new_posts`, and the
persisted state are exactly those of the run without the failing source
(earlier sources' seen-set updates flow unchanged into the later ones). -/
theorem C8_unsupported_format_isolation (o : Oracles) (ce : Option String → String)
    (tag : String) (attrs : List (String × String)) (txt : Option String)
    (children : List Xml)
    (hroot : pyLower (tag_name tag) ≠ "rss" ∧ pyLower (tag_name tag) ≠ "rdf"
      ∧ pyLower (tag_name tag) ≠ "feed")
    (args : Args) (state : PyState) (now : Int)
    (A B : List (SourceCfg × Except String (List Entry))) (sc : SourceCfg)
    (msg : String) :
    parse_feed o ce (Xml.elem tag attrs txt children)
      = .error ("Unsupported feed format: " ++ pyLower (tag_name tag))
    ∧ (collect_digest args state now (A ++ (sc, .error msg) :: B)).1.sources
        = (collect_digest args state now (A ++ B)).1.sources.take A.length
          ++ errorResult sc msg
            :: (collect_digest args state now (A ++ B)).1.sources.drop A.length
    ∧ (errorResult sc msg).error = some msg
    ∧ (collect_digest args state now (A ++ (sc, .error msg) :: B)).1.new_posts
        = (collect_digest args state now (A ++ B)).1.new_posts
    ∧ (collect_digest args state now (A ++ (sc, .error msg) :: B)).2
        = (collect_digest args state now (A ++ B)).2 := by
  obtain ⟨hr1, hr2, hr3⟩ := hroot
  constructor
  · simp [parse_feed, Xml.tag, hr1, hr2, hr3]
  set ws := windowStartOf args state now with hws
  set maxp := args.max_posts_per_source with hmaxp
  set st0 : OuterSt := { seen := state.seen_urls, observed := [] } with hst0
  have key : runSources ws maxp st0 (A ++ (sc, .error msg) :: B)
      = ((runSources ws maxp (runSources ws maxp st0 A).1 B).1,
         (runSources ws maxp st0 A).2 ++ errorResult sc msg ::
           (runSources ws maxp (runSources ws maxp st0 A).1 B).2) := by
    rw [runSources_append, runSources_cons, processSource_error]
  have key2 : runSources ws maxp st0 (A ++ B)
      = ((runSources ws maxp (runSources ws maxp st0 A).1 B).1,
         (runSources ws maxp st0 A).2
           ++ (runSources ws maxp (runSources ws maxp st0 A).1 B).2) :=
    runSources_append ws maxp A B st0
  have hlen : (runSources ws maxp st0 A).2.length = A.length := runSources_length A st0
  refine ⟨?_, rfl, ?_, ?_⟩
  · rw [collect_digest_sources, collect_digest_sources, ← hws, ← hmaxp, ← hst0, key, key2]
    rw [← hlen, List.take_left, List.drop_left]
  · rw [collect_digest_new_posts, collect_digest_new_posts, ← hws, ← hmaxp, ← hst0,
      key, key2]
    simp [errorResult]
  · show (if args.no_state_update then none else _) = (if args.no_state_update then none else _)
    rw [show (runSources ws maxp st0 (A ++ (sc, .error msg) :: B)).1
        = (runSources ws maxp st0 (A ++ B)).1 by rw [key, key2]]

/-- Witness for C8 at a concrete input: a `<catalog>` root yields the
unsupported-format error, and a failing middle source leaves the other two
sources' new posts unchanged. -/
theorem C8_witness :
    parse_feed ⟨fun _ => none, id, fun _ => none⟩ (fun _ => "")
        (Xml.elem "catalog" [] none [])
      = .error "Unsupported feed format: catalog"
    ∧ (collect_digest ⟨10, 0, 5, false⟩ ⟨none, []⟩ 0
        [(⟨"a", "A", "fa"⟩, .ok [⟨"t", "u1", "", some 0⟩]),
         (⟨"c", "C", "fc"⟩, .error "Unsupported feed format: catalog"),
         (⟨"b", "B", "fb"⟩, .ok [⟨"t2", "u2", "", some 0⟩])]).1.new_posts
      = (collect_digest ⟨10, 0, 5, false⟩ ⟨none, []⟩ 0
        [(⟨"a", "A", "fa"⟩, .ok [⟨"t", "u1", "", some 0⟩]),
         (⟨"b", "B", "fb"⟩, .ok [⟨"t2", "u2", "", some 0⟩])]).1.new_posts := by
  have h := C8_unsupported_format_isolation ⟨fun _ => none, id, fun _ => none⟩
    (fun _ => "") "catalog" [] none [] ⟨by decide, by decide, by decide⟩
    ⟨10, 0, 5, false⟩ ⟨none, []⟩ 0
    [(⟨"a", "A", "fa"⟩, .ok [⟨"t", "u1", "", some 0⟩])]
    [(⟨"b", "B", "fb"⟩, .ok [⟨"t2", "u2", "", some 0⟩])]
    ⟨"c", "C", "fc"⟩ "Unsupported feed format: catalog"
  refine ⟨?_, h.2.2.2.1⟩
  rw [h.1]
  exact congrArg Except.error (by decide)

/-- C9 (counterexample): a state file whose content is valid JSON but not an
object — here the document `[]` — is "not decodable as the expected JSON
object", yet it is not downgraded to the empty state: `load_state` returns
it as-is and the run fails at `state.get("last_run")` with an
`AttributeError` instead of proceeding as a first run. -/
theorem C9_counterexample :
    collect_digest_from_file ⟨fun _ => none, id, fun _ => none⟩ ⟨10, 0, 5, false⟩
        (some (some (Json.arr []))) 0 []
      = .error "AttributeError: get" := rfl

/-- C9 (amended): a missing state file, or one whose content fails JSON
decoding (a `JSONDecodeError`), loads as the empty state and the run
proceeds as a first run (empty seen-set, window from `since_hours`); but a
file decoding to a non-object JSON value is outside this guarantee and
raises. -/
theorem C9_state_load_robustness (o : Oracles) (args : Args) (now : Int)
    (fetches : List (SourceCfg × Except String (List Entry)))
    (file : Option (Option Json)) (h : file = none ∨ file = some none) :
    load_state file = Json.obj []
    ∧ collect_digest_from_file o args file now fetches
        = .ok (collect_digest args { last_run := none, seen_urls := [] } now fetches)
    ∧ (collect_digest args { last_run := none, seen_urls := [] } now
        fetches).1.window_start = now - args.since_hours := by
  rcases h with rfl | rfl <;> exact ⟨rfl, rfl, rfl⟩

/-- Witness for C9's amended theorem: a missing file and an undecodable file
both yield the first-run result. -/
theorem C9_witness :
    collect_digest_from_file ⟨fun _ => none, id, fun _ => none⟩ ⟨10, 0, 5, false⟩
        none 0 [] = .ok (collect_digest ⟨10, 0, 5, false⟩ ⟨none, []⟩ 0 [])
    ∧ collect_digest_from_file ⟨fun _ => none, id, fun _ => none⟩ ⟨10, 0, 5, false⟩
        (some none) 0 [] = .ok (collect_digest ⟨10, 0, 5, false⟩ ⟨none, []⟩ 0 []) :=
  ⟨(C9_state_load_robustness ⟨fun _ => none, id, fun _ => none⟩ ⟨10, 0, 5, false⟩ 0 []
      none (Or.inl rfl)).2.1,
   (C9_state_load_robustness ⟨fun _ => none, id, fun _ => none⟩ ⟨10, 0, 5, false⟩ 0 []
      (some none) (Or.inr rfl)).2.1⟩

/-! ### Supporting lemmas for C7 -/

theorem length_pyRstrip_le (s : String) : (pyRstrip s).length ≤ s.length := by
  have h : (s.toList.reverse.dropWhile isPyWs).length ≤ s.toList.reverse.length :=
    (List.dropWhile_sublist isPyWs).length_le
  simp only [pyRstrip, String.length, List.length_reverse]
  simpa using h

/-- C7 (counterexample): sanitized text of length 9 truncated to `max_len =
5` yields 4 characters, not exactly 5 — the `.rstrip()` applied before the
ellipsis drops the space at the truncation boundary; moreover the
daily-reading variant appends its three-character mojibake literal, so its
result has 6 characters and does not end in an ellipsis character. -/
theorem C7_counterexample :
    sanitizeText id "abc defgh" = "abc defgh"
    ∧ 5 < ("abc defgh" : String).length
    ∧ clean_excerpt_vicki id (some "abc defgh") 5 = "abc…"
    ∧ (clean_excerpt_vicki id (some "abc defgh") 5).length ≠ 5
    ∧ (clean_excerpt id (some "abc defgh") 5).length = 6
    ∧ (clean_excerpt id (some "abc defgh") 5).toList.getLast? ≠ some '…' := by decide

/-- C7 (amended): sanitized text at or under `max_len` is returned
unchanged; longer text is truncated to `max_len - 1` characters,
right-stripped, and the script's suffix literal is appended — for the
single-character ellipsis of the vicki script this gives at most `max_len`
characters ending in the ellipsis (exactly `max_len` only when nothing was
right-stripped), while the daily script's three-character mojibake literal
ends in U+00A6.  Stated for `1 ≤ max_len` (both call sites use 240/300). -/
theorem C7_bounded_excerpt (unescape : String → String) (raw : String) (mc : Nat)
    (hmc : 1 ≤ mc) (hraw : raw ≠ "") :
    ((sanitizeText unescape raw).length ≤ mc →
      clean_excerpt_vicki unescape (some raw) mc = sanitizeText unescape raw
      ∧ clean_excerpt unescape (some raw) mc = sanitizeText unescape raw)
    ∧ (mc < (sanitizeText unescape raw).length →
        clean_excerpt_vicki unescape (some raw) mc
          = pyRstrip (String.mk ((sanitizeText unescape raw).toList.take (mc - 1)))
            ++ vickiSuffix
        ∧ (clean_excerpt_vicki unescape (some raw) mc).length ≤ mc
        ∧ (clean_excerpt_vicki unescape (some raw) mc).toList.getLast? = some '…'
        ∧ clean_excerpt unescape (some raw) mc
            = pyRstrip (String.mk ((sanitizeText unescape raw).toList.take (mc - 1)))
              ++ dailySuffix
        ∧ (clean_excerpt unescape (some raw) mc).toList.getLast? = some '¦') := by
  constructor
  · intro hle
    constructor <;> simp [clean_excerpt_vicki, clean_excerpt, truncateExcerpt, hraw, hle]
  · intro hgt
    have hnle : ¬ (sanitizeText unescape raw).length ≤ mc := Nat.not_le.mpr hgt
    have heqv : clean_excerpt_vicki unescape (some raw) mc
        = pyRstrip (String.mk ((sanitizeText unescape raw).toList.take (mc - 1)))
          ++ vickiSuffix := by
      simp [clean_excerpt_vicki, truncateExcerpt, hraw, hnle]
    have heqd : clean_excerpt unescape (some raw) mc
        = pyRstrip (String.mk ((sanitizeText unescape raw).toList.take (mc - 1)))
          ++ dailySuffix := by
      simp [clean_excerpt, truncateExcerpt, hraw, hnle]
    refine ⟨heqv, ?_, ?_, heqd, ?_⟩
    · rw [heqv, String.length_append]
      have h1 : (pyRstrip (String.mk
          ((sanitizeText unescape raw).toList.take (mc - 1)))).length ≤ mc - 1 := by
        refine le_trans (length_pyRstrip_le _) ?_
        simp only [String.length]
        exact le_trans (List.length_take_le _ _) (le_refl _)
      have h2 : vickiSuffix.length = 1 := rfl
      omega
    · rw [heqv]
      show (pyRstrip (String.mk ((sanitizeText unescape raw).toList.take (mc - 1)))
        ++ vickiSuffix).data.getLast? = some '…'
      rw [String.data_append]
      exact List.getLast?_concat _
    · rw [heqd]
      show (pyRstrip (String.mk ((sanitizeText unescape raw).toList.take (mc - 1)))
        ++ dailySuffix).data.getLast? = some '¦'
      rw [String.data_append]
      have : dailySuffix.data = ['â', '€', '¦'] := rfl
      rw [this, show (['â', '€', '¦'] : List Char) = ['â', '€'] ++ ['¦'] from rfl,
        ← List.append_assoc]
      exact List.getLast?_concat _

/-- Witness for C7's amended theorem at concrete inputs: a short text passes
through, a long one is truncated to at most `max_len` characters ending in
the ellipsis. -/
theorem C7_witness :
    clean_excerpt_vicki id (some "hello") 5 = "hello"
    ∧ clean_excerpt_vicki id (some "abcdefgh") 5 = "abcd…"
    ∧ (clean_excerpt_vicki id (some "abcdefgh") 5).length ≤ 5
    ∧ (clean_excerpt_vicki id (some "abcdefgh") 5).toList.getLast? = some '…' := by
  have h1 := C7_bounded_excerpt id "hello" 5 (by decide) (by decide)
  have h2 := C7_bounded_excerpt id "abcdefgh" 5 (by decide) (by decide)
  obtain ⟨ha, hb, hc, _, _⟩ := h2.2 (by decide)
  refine ⟨?_, ?_, hb, hc⟩
  · have := (h1.1 (by decide)).1
    rw [this]
    decide
  · rw [ha]
    decide

/-! ### Supporting lemmas for C5 and C1 -/

theorem processSource_posts_observed {ws : Int} {maxp : Nat} {st : OuterSt}
    {sf : SourceCfg × Except String (List Entry)} :
    ∀ p ∈ (processSource ws maxp st sf).2.new_posts,
      p.url ∈ (processSource ws maxp st sf).1.observed := by
  obtain ⟨src, fr⟩ := sf
  cases fr with
  | error msg => intro p hp; cases hp
  | ok entries =>
    rw [processSource_ok]
    intro p hp
    rcases foldl_pe_posts_fresh _ _ p hp with hnil | ⟨_, e, he, hurl, hne⟩
    · cases hnil
    · rw [hurl]
      exact foldl_pe_mem_observed _ _ e he hne

theorem runSources_posts_observed {ws : Int} {maxp : Nat} :
    ∀ (fs : List (SourceCfg × Except String (List Entry))) (st : OuterSt)
      (r : SourceResult) (p : Post), r ∈ (runSources ws maxp st fs).2 →
      p ∈ r.new_posts → p.url ∈ (runSources ws maxp st fs).1.observed := by
  intro fs
  induction fs with
  | nil => intro st r p hr; cases hr
  | cons sf rest ih =>
    intro st r p hr hp
    rw [runSources_cons] at hr ⊢
    rcases List.mem_cons.mp hr with rfl | hr
    · exact runSources_observed_mono rest _ _ (processSource_posts_observed p hp)
    · exact ih _ r p hr hp

theorem mem_take_append_of_mem_left {α : Type} : ∀ (a b : List α) (n : Nat),
    a.length ≤ n → ∀ {x}, x ∈ a → x ∈ (a ++ b).take n := by
  intro a
  induction a with
  | nil => intro b n _ x hx; cases hx
  | cons y a' ih =>
    intro b n hlen x hx
    cases n with
    | zero => simp at hlen
    | succ m =>
      rw [List.cons_append, List.take_succ_cons]
      rcases List.mem_cons.mp hx with rfl | hx2
      · exact List.mem_cons_self _ _
      · exact List.mem_cons_of_mem _
          (ih b m (by simp only [List.length_cons] at hlen; omega) hx2)

theorem dedupF_append_absorb : ∀ (a b seen : List String), a.Nodup →
    (∀ x ∈ a, x ≠ "" ∧ x ∉ seen) → (∀ x ∈ b, x ∈ a ∨ x ∈ seen) →
    dedupF (a ++ b) seen = a := by
  intro a
  induction a with
  | nil =>
    intro b seen _ _ hb
    simp only [List.nil_append]
    exact dedupF_eq_nil fun x hx => Or.inr ((hb x hx).resolve_left (List.not_mem_nil x))
  | cons u a' ih =>
    intro b seen hnd ha hb
    have hu := ha u (List.mem_cons_self _ _)
    rw [List.cons_append, dedupF, if_neg (by push_neg; exact hu)]
    congr 1
    refine ih b (u :: seen) (List.nodup_cons.mp hnd).2 ?_ ?_
    · intro x hx
      have hxa := ha x (List.mem_cons_of_mem _ hx)
      refine ⟨hxa.1, fun hc => ?_⟩
      rcases List.mem_cons.mp hc with rfl | hc2
      · exact (List.nodup_cons.mp hnd).1 hx
      · exact hxa.2 hc2
    · intro x hx
      rcases hb x hx with hxa | hxs
      · rcases List.mem_cons.mp hxa with rfl | hxa2
        · exact Or.inr (List.mem_cons_self _ _)
        · exact Or.inl hxa2
      · exact Or.inr (List.mem_cons_of_mem _ hxs)

/-- The run's `observed_urls` log (encounter order, across all sources). -/
def runObserved (args : Args) (state : PyState) (now : Int)
    (fetches : List (SourceCfg × Except String (List Entry))) : List String :=
  (runSources (windowStartOf args state now) args.max_posts_per_source
    { seen := state.seen_urls, observed := [] } fetches).1.observed

/-- C5 (amended): with persistence enabled, the persisted `seen_urls` is the
pruned merge of this run's observed URLs ahead of the prior list — it has no
duplicates, at most 2500 entries, and consists of the run's observed URLs
(first occurrences, in encounter order) followed by retained prior entries,
truncated to the bound; each post appears in `new_posts` with a distinct
URL, and its URL occurs in the persisted list at most once — exactly once
whenever the run observed at most 2500 distinct non-empty URLs. -/
theorem C5_seen_set_invariants (args : Args) (state : PyState) (now : Int)
    (fetches : List (SourceCfg × Except String (List Entry)))
    (h : args.no_state_update = false) :
    (collect_digest args state now fetches).2
      = some { last_run := some now
               seen_urls := prune_seen (runObserved args state now fetches)
                 state.seen_urls }
    ∧ (prune_seen (runObserved args state now fetches) state.seen_urls).Nodup
    ∧ (prune_seen (runObserved args state now fetches) state.seen_urls).length ≤ 2500
    ∧ (∃ rest, dedupF (runObserved args state now fetches ++ state.seen_urls) []
          = dedupF (runObserved args state now fetches) [] ++ rest
        ∧ (∀ x ∈ rest, x ∈ state.seen_urls)
        ∧ prune_seen (runObserved args state now fetches) state.seen_urls
            = (dedupF (runObserved args state now fetches) [] ++ rest).take 2500)
    ∧ ((collect_digest args state now fetches).1.new_posts.map Post.url).Nodup
    ∧ (∀ p ∈ (collect_digest args state now fetches).1.new_posts,
        (prune_seen (runObserved args state now fetches) state.seen_urls).count p.url
          ≤ 1)
    ∧ ((dedupF (runObserved args state now fetches) []).length ≤ 2500 →
        ∀ p ∈ (collect_digest args state now fetches).1.new_posts,
          (prune_seen (runObserved args state now fetches) state.seen_urls).count p.url
            = 1) := by
  have hnd : (prune_seen (runObserved args state now fetches) state.seen_urls).Nodup :=
    prune_seen_nodup _ _ (by norm_num)
  obtain ⟨rest, hrest, hrb⟩ := dedupF_append_split (runObserved args state now fetches)
    state.seen_urls []
  have hpr : prune_seen (runObserved args state now fetches) state.seen_urls
      = (dedupF (runObserved args state now fetches) [] ++ rest).take 2500 := by
    rw [prune_seen_eq _ _ (by norm_num), hrest]
  have hnodup_posts :
      ((collect_digest args state now fetches).1.new_posts.map Post.url).Nodup := by
    rw [collect_digest_new_posts]
    have hperm := (sortDesc_perm (fun p : Post => sortKey p.published_at)
      (((runSources (windowStartOf args state now) args.max_posts_per_source
        { seen := state.seen_urls, observed := [] } fetches).2.map
          SourceResult.new_posts).flatten)).map Post.url
    exact hperm.nodup_iff.mpr (runSources_flatten_nodup fetches _)
  have hmem : ∀ p ∈ (collect_digest args state now fetches).1.new_posts,
      p.url ∈ runObserved args state now fetches ∧ p.url ≠ "" := by
    intro p hp
    rw [collect_digest_new_posts] at hp
    rcases List.mem_flatten.mp (mem_sortDesc.mp hp) with ⟨posts, hposts, hp3⟩
    rcases List.mem_map.mp hposts with ⟨r, hr, rfl⟩
    exact ⟨runSources_posts_observed fetches _ r p hr hp3,
      (runSources_posts_fresh fetches _ r p hr hp3).2.2⟩
  refine ⟨collect_digest_state args state now fetches h, hnd,
    prune_seen_length_le _ _ (by norm_num), ⟨rest, hrest, hrb, hpr⟩, hnodup_posts,
    fun p _ => List.nodup_iff_count_le_one.mp hnd p.url, fun hsmall p hp => ?_⟩
  have hin : p.url ∈ prune_seen (runObserved args state now fetches) state.seen_urls := by
    rw [hpr]
    exact mem_take_append_of_mem_left _ rest 2500 hsmall
      (mem_dedupF.mpr ⟨(hmem p hp).1, (hmem p hp).2, List.not_mem_nil _⟩)
  exact le_antisymm (List.nodup_iff_count_le_one.mp hnd p.url)
    (List.count_pos_iff.mpr hin)

/-- Witness for C5's amended theorem at a concrete input: one fresh URL and
one retained prior URL. -/
theorem C5_witness :
    (collect_digest ⟨36000000000, 0, 5, false⟩ ⟨none, ["b"]⟩ 0
        [(⟨"s", "S", "f"⟩, .ok [⟨"t", "a", "", some 0⟩])]).2
      = some { last_run := some 0, seen_urls := ["a", "b"] }
    ∧ ((collect_digest ⟨36000000000, 0, 5, false⟩ ⟨none, ["b"]⟩ 0
        [(⟨"s", "S", "f"⟩, .ok [⟨"t", "a", "", some 0⟩])]).1.new_posts.map
          Post.url).Nodup
    ∧ ∀ p ∈ (collect_digest ⟨36000000000, 0, 5, false⟩ ⟨none, ["b"]⟩ 0
        [(⟨"s", "S", "f"⟩, .ok [⟨"t", "a", "", some 0⟩])]).1.new_posts,
        (prune_seen (runObserved ⟨36000000000, 0, 5, false⟩ ⟨none, ["b"]⟩ 0
          [(⟨"s", "S", "f"⟩, .ok [⟨"t", "a", "", some 0⟩])]) ["b"]).count p.url = 1 := by
  have h := C5_seen_set_invariants ⟨36000000000, 0, 5, false⟩ ⟨none, ["b"]⟩ 0
    [(⟨"s", "S", "f"⟩, .ok [⟨"t", "a", "", some 0⟩])] rfl
  refine ⟨?_, h.2.2.2.2.1, h.2.2.2.2.2.2 (by decide)⟩
  rw [h.1]
  exact congrArg some (by decide)

/-! ### A run observing 2501 distinct URLs (the `prune_seen` bound is 2500)

`bigUrl i` is the string of `i + 1` letters `a`; the URLs are pairwise
distinct and non-empty.  The run below fetches one source whose 2501 entries
are all timestamped at the epoch. -/

def bigUrl (i : Nat) : String := String.mk (List.replicate (i + 1) 'a')

def bigUrls (n : Nat) : List String := (List.range n).map bigUrl

def bigEntry (i : Nat) : Entry :=
  { title := "t", url := bigUrl i, summary := "", published_at := some 0 }

def bigEntries (n : Nat) : List Entry := (List.range n).map bigEntry

def bigSource : SourceCfg := { id := "s", name := "S", feed := "f" }

def bigArgs : Args :=
  { since_hours := 10, grace_hours := 0, max_posts_per_source := 1,
    no_state_update := false }

theorem bigUrl_ne_empty (i : Nat) : bigUrl i ≠ "" := by
  intro h
  have h2 : i + 1 = 0 := by
    simpa [bigUrl] using congrArg (fun s => s.data.length) h
  omega

theorem bigUrl_injective : Function.Injective bigUrl := by
  intro i j h
  have h2 : i + 1 = j + 1 := by
    simpa [bigUrl] using congrArg (fun s => s.data.length) h
  omega

theorem bigUrls_nodup (n : Nat) : (bigUrls n).Nodup :=
  List.Nodup.map bigUrl_injective (List.nodup_range n)

theorem bigUrl_mem_bigUrls_iff {i n : Nat} : bigUrl i ∈ bigUrls n ↔ i < n := by
  constructor
  · intro h
    rcases List.mem_map.mp h with ⟨j, hj, heq⟩
    exact bigUrl_injective heq ▸ List.mem_range.mp hj
  · intro h
    exact List.mem_map.mpr ⟨i, List.mem_range.mpr h, rfl⟩

theorem mem_bigUrls {x : String} {n : Nat} (h : x ∈ bigUrls n) :
    ∃ i, i < n ∧ x = bigUrl i := by
  rcases List.mem_map.mp h with ⟨i, hi, rfl⟩
  exact ⟨i, List.mem_range.mp hi, rfl⟩

theorem bigUrls_succ (n : Nat) : bigUrls (n + 1) = bigUrls n ++ [bigUrl n] := by
  simp [bigUrls, List.range_succ]

theorem bigUrls_length (n : Nat) : (bigUrls n).length = n := by
  simp [bigUrls]

theorem bigEntries_succ (n : Nat) : bigEntries (n + 1) = bigEntries n ++ [bigEntry n] := by
  simp [bigEntries, List.range_succ]

theorem bigEntries_map_url (n : Nat) : (bigEntries n).map Entry.url = bigUrls n := by
  simp only [bigEntries, bigUrls, List.map_map]
  rfl

theorem bigEntries_length (n : Nat) : (bigEntries n).length = n := by
  simp [bigEntries]

theorem bigEntry_url (i : Nat) : (bigEntry i).url = bigUrl i := rfl

theorem bigEntries_key (n : Nat) :
    ∀ e ∈ bigEntries n, (fun e : Entry => sortKey e.published_at) e = 0 := by
  intro e he
  rcases List.mem_map.mp he with ⟨i, _, rfl⟩
  rfl

set_option maxRecDepth 20000 in
theorem bigInnerFold (ws : Int) (hws : ws ≤ 0) :
    innerFold ws 1 bigSource { seen := bigUrls 2500, observed := [] } (bigEntries 2501)
      = { seen := bigUrl 2500 :: bigUrls 2500, observed := bigUrls 2501,
          source_posts := [mkPost bigSource (bigEntry 2500)] } := by
  rw [innerFold,
    @sortDesc_const Entry (fun e => sortKey e.published_at) 0 (bigEntries 2501)
      (bigEntries_key 2501),
    bigEntries_succ 2500, List.foldl_append]
  have hskip : ∀ e ∈ bigEntries 2500, e.url ≠ ""
      ∧ e.url ∈ (({ seen := bigUrls 2500, observed := [], source_posts := [] } :
        LoopAcc)).seen := by
    intro e he
    rcases List.mem_map.mp he with ⟨i, hi, rfl⟩
    exact ⟨bigUrl_ne_empty i, bigUrl_mem_bigUrls_iff.mpr (List.mem_range.mp hi)⟩
  rw [foldl_pe_skip_all (bigEntries 2500) _ hskip]
  have hfresh : (bigEntry 2500).url ∉
      ({ seen := bigUrls 2500, observed := [] ++ (bigEntries 2500).map Entry.url,
         source_posts := [] } : LoopAcc).seen := by
    show bigUrl 2500 ∉ bigUrls 2500
    intro hc
    exact absurd (bigUrl_mem_bigUrls_iff.mp hc) (by omega)
  have hrecent : entryIsRecent ws (bigEntry 2500) = true := by
    simp only [entryIsRecent, bigEntry, decide_eq_true_eq]
    exact hws
  rw [List.foldl_cons, List.foldl_nil,
    processEntry_of_emit ws 1 bigSource _ (bigEntry 2500) (bigUrl_ne_empty 2500)
      hfresh hrecent (by simp)]
  simp only [markEmit, List.nil_append, bigEntries_map_url, bigEntry_url,
    ← bigUrls_succ]

set_option maxRecDepth 20000 in
theorem bigRunSources (ws : Int) (hws : ws ≤ 0) :
    runSources ws 1 { seen := bigUrls 2500, observed := [] }
      [(bigSource, .ok (bigEntries 2501))]
      = ({ seen := bigUrl 2500 :: bigUrls 2500, observed := bigUrls 2501 },
         [{ source_id := "s", source_name := "S", feed := "f"
            new_posts := [mkPost bigSource (bigEntry 2500)], new_count := 1
            fetched_count := 2501, error := none }]) := by
  rw [runSources_cons, runSources_nil, processSource_ok, bigInnerFold ws hws,
    bigEntries_length 2501]
  rfl

set_option maxRecDepth 20000 in
theorem bigPrune : prune_seen (bigUrls 2501) (bigUrls 2500) 2500 = bigUrls 2500 := by
  rw [prune_seen_eq _ _ (by norm_num),
    dedupF_append_absorb (bigUrls 2501) (bigUrls 2500) [] (bigUrls_nodup 2501)
      (fun x hx => by
        rcases mem_bigUrls hx with ⟨i, _, rfl⟩
        exact ⟨bigUrl_ne_empty i, List.not_mem_nil _⟩)
      (fun x hx => by
        rcases mem_bigUrls hx with ⟨i, hi, rfl⟩
        exact Or.inl (bigUrl_mem_bigUrls_iff.mpr (by omega))),
    bigUrls_succ 2500,
    List.take_append_of_le_length (by rw [bigUrls_length])]
  exact List.take_of_length_le (by rw [bigUrls_length])

set_option maxRecDepth 20000 in
theorem bigCollect (state : PyState) (h1 : state.seen_urls = bigUrls 2500)
    (hws : windowStartOf bigArgs state 0 ≤ 0) :
    (collect_digest bigArgs state 0 [(bigSource, .ok (bigEntries 2501))]).1.new_posts
      = [mkPost bigSource (bigEntry 2500)]
    ∧ (collect_digest bigArgs state 0 [(bigSource, .ok (bigEntries 2501))]).2
      = some { last_run := some 0, seen_urls := bigUrls 2500 } := by
  have hrs := bigRunSources (windowStartOf bigArgs state 0) hws
  constructor
  · rw [collect_digest_new_posts, h1,
      show bigArgs.max_posts_per_source = 1 from rfl, hrs]
    rfl
  · rw [collect_digest_state bigArgs state 0 _ rfl, h1,
      show bigArgs.max_posts_per_source = 1 from rfl, hrs]
    exact congrArg some (by rw [bigPrune])

set_option maxRecDepth 20000 in
/-- C1 (counterexample): the engine run over one source with 2501 distinct
recent entries, starting from a state whose `seen_urls` already holds the
first 2500 of them.  Run 1 emits the one fresh post, but `prune_seen` caps
the persisted `seen_urls` at 2500 entries, dropping that post's URL; run 2
over the same decoded entries and the persisted state emits it again, so the
second run's `new_posts` is not empty. -/
theorem C1_counterexample :
    bigArgs.no_state_update = false
    ∧ (collect_digest bigArgs { last_run := none, seen_urls := bigUrls 2500 } 0
        [(bigSource, .ok (bigEntries 2501))]).2
      = some { last_run := some 0, seen_urls := bigUrls 2500 }
    ∧ (collect_digest bigArgs { last_run := some 0, seen_urls := bigUrls 2500 } 0
        [(bigSource, .ok (bigEntries 2501))]).1.new_posts ≠ [] := by
  refine ⟨rfl, ?_, ?_⟩
  · exact (bigCollect ⟨none, bigUrls 2500⟩ rfl (by decide)).2
  · rw [(bigCollect ⟨some 0, bigUrls 2500⟩ rfl (by decide)).1]
    exact List.cons_ne_nil _ _

/-- C1 (amended): with persistence enabled, if run 1 observes at most 2500
distinct non-empty canonical URLs (the `prune_seen` bound), then a second
run over the same fetched entries and the persisted state emits an empty
`new_posts` list, whatever the two runs' clock readings. -/
theorem C1_idempotence (args : Args) (state : PyState) (now1 now2 : Int)
    (fetches : List (SourceCfg × Except String (List Entry)))
    (h : args.no_state_update = false)
    (hsmall : (dedupF (runObserved args state now1 fetches) []).length ≤ 2500)
    (st2 : PyState)
    (hst2 : (collect_digest args state now1 fetches).2 = some st2) :
    (collect_digest args st2 now2 fetches).1.new_posts = [] := by
  rw [collect_digest_state args state now1 fetches h] at hst2
  injection hst2 with hst2
  subst hst2
  rw [collect_digest_new_posts, runSources_no_new fetches _ ?hseen]
  · rfl
  case hseen =>
    intro sf hsf es hes e he
    by_cases hne : e.url = ""
    · exact Or.inl hne
    refine Or.inr ?_
    show e.url ∈ prune_seen (runObserved args state now1 fetches) state.seen_urls
    have hobs : e.url ∈ runObserved args state now1 fetches := by
      refine runSources_mem_observed fetches _ sf.1 es e ?_ he hne
      rw [show (sf.1, Except.ok es) = sf from by rw [← hes]]
      exact hsf
    obtain ⟨rest, hrest, _⟩ := dedupF_append_split (runObserved args state now1 fetches)
      state.seen_urls []
    rw [prune_seen_eq _ _ (by norm_num), hrest]
    exact mem_take_append_of_mem_left _ rest 2500 hsmall
      (mem_dedupF.mpr ⟨hobs, hne, List.not_mem_nil _⟩)

/-- Witness for C1's amended theorem at a concrete input: a one-entry run
persists its URL; the second run emits nothing. -/
theorem C1_witness :
    (dedupF (runObserved ⟨36000000000, 0, 5, false⟩ ⟨none, []⟩ 0
        [(⟨"s", "S", "f"⟩, .ok [⟨"t", "a", "", some 0⟩])]) []).length ≤ 2500
    ∧ (collect_digest ⟨36000000000, 0, 5, false⟩ ⟨some 0, ["a"]⟩ 1
        [(⟨"s", "S", "f"⟩, .ok [⟨"t", "a", "", some 0⟩])]).1.new_posts = [] :=
  ⟨by decide,
   C1_idempotence ⟨36000000000, 0, 5, false⟩ ⟨none, []⟩ 0 1
     [(⟨"s", "S", "f"⟩, .ok [⟨"t", "a", "", some 0⟩])] rfl (by decide)
     ⟨some 0, ["a"]⟩ (by decide)⟩

set_option maxRecDepth 20000 in
/-- C5 (counterexample): in the 2501-URL run, the emitted post's canonical
URL is observed last and `prune_seen` drops it, so it is added to the next
`seen_urls` zero times — not exactly once. -/
theorem C5_counterexample :
    (collect_digest bigArgs { last_run := none, seen_urls := bigUrls 2500 } 0
        [(bigSource, .ok (bigEntries 2501))]).1.new_posts
      = [mkPost bigSource (bigEntry 2500)]
    ∧ (collect_digest bigArgs { last_run := none, seen_urls := bigUrls 2500 } 0
        [(bigSource, .ok (bigEntries 2501))]).2
      = some { last_run := some 0, seen_urls := bigUrls 2500 }
    ∧ (bigUrls 2500).count (mkPost bigSource (bigEntry 2500)).url = 0 := by
  refine ⟨(bigCollect ⟨none, bigUrls 2500⟩ rfl (by decide)).1,
    (bigCollect ⟨none, bigUrls 2500⟩ rfl (by decide)).2, ?_⟩
  rw [List.count_eq_zero]
  intro hc
  have h2 : (2500 : Nat) < 2500 := bigUrl_mem_bigUrls_iff.mp hc
  omega
